import Mathlib

/-!
Shallow embedding of `latticelm.h` (recruit474/latticelm), the trainer of an
unsupervised lattice/text segmentation learner built on Pitman-Yor language
models and WFSTs.  Machine doubles are modelled as exact rationals, the two
hierarchical Pitman-Yor LMs (`pylm.h`, not under `src/`) as abstract state
types with an operations record, and the WFST library (OpenFST, an external
collaborator) as an oracle over symbolic FST terms.  Every definition below
is translated from `src/latticelm.h` unless its doc comment says it is
modelled from the spec.
-/

namespace LatticeLM

/-- Character identifiers (`CharId`): dense nonnegative integers. -/
abbrev CharId := Nat

/-- Word identifiers (`WordId`): signed, since `trim` uses the sentinel -1. -/
abbrev WordId := Int

/-- Log- or linear-domain probabilities (`LMProb`, a C `double`) as rationals. -/
abbrev LMProb := ℚ

/-- Characters skipped by `istream` extraction and by `atoi`/`atof`. -/
def isSpaceC (ch : Char) : Bool :=
  ch = ' ' || ch = '\t' || ch = '\n' || ch = '\r' || ch = '\x0b' || ch = '\x0c'

/-- Does the string start with the given character?  (C code reads single
bytes; an empty C string yields the NUL terminator, never a match.) -/
def headIs (s : String) (ch : Char) : Bool :=
  match s.data with
  | [] => false
  | c :: _ => c = ch

/-- The extraction loop `iss >> str` over the remaining characters: skip
whitespace, collect maximal non-whitespace runs (accumulated reversed). -/
def tokenizeAux : List Char → List Char → List String
  | [], cur => if cur.isEmpty then [] else [⟨cur.reverse⟩]
  | ch :: rest, cur =>
    if isSpaceC ch then
      if cur.isEmpty then tokenizeAux rest []
      else ⟨cur.reverse⟩ :: tokenizeAux rest []
    else tokenizeAux rest (ch :: cur)

/-- Whitespace tokenisation of one line, as `iss >> str` performs it. -/
def tokenize (line : String) : List String :=
  tokenizeAux line.data []

/-- Accumulate decimal digits, as the digit loop of `atoi`/`atof` does. -/
def natDigits : List Char → ℕ → ℕ
  | [], acc => acc
  | ch :: rest, acc =>
    if ch.isDigit then natDigits rest (acc * 10 + (ch.toNat - 48)) else acc

/-- Model of libc `atoi` (external collaborator): optional sign then digits. -/
def atoiI (s : String) : ℤ :=
  match s.data.dropWhile isSpaceC with
  | '-' :: rest => - (natDigits rest 0 : ℤ)
  | '+' :: rest => (natDigits rest 0 : ℤ)
  | l => (natDigits l 0 : ℤ)

/-- An `atoi` result stored into a C `unsigned` member (32-bit wrap-around). -/
def atoiU (s : String) : ℕ := ((atoiI s).emod (2 ^ 32)).toNat

/-- Magnitude part of libc `atof`: integer digits, optional point, fraction. -/
def atofMag (l : List Char) : ℚ :=
  let ds := l.takeWhile Char.isDigit
  let rest := l.dropWhile Char.isDigit
  match rest with
  | '.' :: fr =>
    let fds := fr.takeWhile Char.isDigit
    (natDigits ds 0 : ℚ) + (natDigits fds 0 : ℚ) / (10 ^ fds.length : ℚ)
  | _ => (natDigits ds 0 : ℚ)

/-- Model of libc `atof` (external collaborator; exponents not used here). -/
def atofQ (s : String) : ℚ :=
  match s.data.dropWhile isSpaceC with
  | '-' :: rest => - atofMag rest
  | '+' :: rest => atofMag rest
  | l => atofMag l

/-- The configuration members of `LatticeLM`, with the constructor's
defaults (`latticelm.h`, lines 96-105).  `inputType`: 0 = `INPUT_FST`,
1 = `INPUT_TEXT`.  `amScale` is the double 0.2 as the exact rational 1/5. -/
structure Config where
  numBurnIn : ℕ := 20
  numAnnealSteps : ℕ := 5
  annealStepLength : ℕ := 3
  numSamples : ℕ := 100
  sampleRate : ℕ := 1
  trimRate : ℕ := 1
  pruneThreshold : ℚ := 0
  amScale : ℚ := 1 / 5
  knownN : ℕ := 3
  unkN : ℕ := 3
  inputFileList : Option String := none
  inputType : ℕ := 1
  cacheInput : Bool := false
  symbolFile : Option String := none
  outPfx : String := ""
  sep : String := ""
deriving DecidableEq

/-- The configuration produced by the `LatticeLM()` constructor. -/
def defaultConfig : Config := {}

/-- A `dieOnHelp`/`exit(1)` outcome: the process exit code and the
diagnostic written to stderr. -/
structure Died where
  exitCode : ℕ
  msg : String
deriving DecidableEq

/-- The option-reading loop of `loadProperties` (lines 197-224).  It stops at
the first argument that does not begin with '-' and returns the remaining
(positional) arguments.  An option flag missing its value makes the C code
read past the end of `argv` (undefined); it is modelled as a fatal error. -/
def parseArgs : Config → List String → Except Died (Config × List String)
  | c, [] => .ok (c, [])
  | c, a :: rest =>
    if headIs a '-' then
      if a = "-burnin" then
        match rest with
        | v :: rs => parseArgs { c with numBurnIn := atoiU v } rs
        | [] => .error ⟨1, "option value read past the end of argv"⟩
      else if a = "-annealsteps" then
        match rest with
        | v :: rs => parseArgs { c with numAnnealSteps := atoiU v } rs
        | [] => .error ⟨1, "option value read past the end of argv"⟩
      else if a = "-anneallength" then
        match rest with
        | v :: rs => parseArgs { c with annealStepLength := atoiU v } rs
        | [] => .error ⟨1, "option value read past the end of argv"⟩
      else if a = "-samps" then
        match rest with
        | v :: rs => parseArgs { c with numSamples := atoiU v } rs
        | [] => .error ⟨1, "option value read past the end of argv"⟩
      else if a = "-samprate" then
        match rest with
        | v :: rs => parseArgs { c with sampleRate := atoiU v } rs
        | [] => .error ⟨1, "option value read past the end of argv"⟩
      else if a = "-knownn" then
        match rest with
        | v :: rs => parseArgs { c with knownN := atoiU v } rs
        | [] => .error ⟨1, "option value read past the end of argv"⟩
      else if a = "-unkn" then
        match rest with
        | v :: rs => parseArgs { c with unkN := atoiU v } rs
        | [] => .error ⟨1, "option value read past the end of argv"⟩
      else if a = "-prune" then
        match rest with
        | v :: rs => parseArgs { c with pruneThreshold := atofQ v } rs
        | [] => .error ⟨1, "option value read past the end of argv"⟩
      else if a = "-filelist" then
        match rest with
        | v :: rs => parseArgs { c with inputFileList := some v } rs
        | [] => .error ⟨1, "option value read past the end of argv"⟩
      else if a = "-input" then
        match rest with
        | v :: rs =>
          if v = "fst" then parseArgs { c with inputType := 0 } rs
          else if v = "text" then parseArgs { c with inputType := 1 } rs
          else .error ⟨1, "Bad input type '" ++ v ++ "'"⟩
        | [] => .error ⟨1, "option value read past the end of argv"⟩
      else if a = "-symbolfile" then
        match rest with
        | v :: rs => parseArgs { c with symbolFile := some v } rs
        | [] => .error ⟨1, "option value read past the end of argv"⟩
      else if a = "-prefix" then
        match rest with
        | v :: rs => parseArgs { c with outPfx := v } rs
        | [] => .error ⟨1, "option value read past the end of argv"⟩
      else if a = "-separator" then
        match rest with
        | v :: rs => parseArgs { c with sep := v } rs
        | [] => .error ⟨1, "option value read past the end of argv"⟩
      else if a = "-cacheinput" then parseArgs { c with cacheInput := true } rest
      else .error ⟨1, "Illegal option: " ++ a⟩
    else .ok (c, a :: rest)

/-- The file system seen through `ifstream`: which paths open successfully,
and the lines `getline` yields from each path. -/
structure FileSys where
  readable : String → Bool
  lines : String → List String

/-- The per-file existence check of `loadProperties` (lines 235-243 for names
read from a file list — which quotes the name in the diagnostic — and lines
246-254 for positional arguments, which does not). -/
def checkFiles (fs : FileSys) (quoted : Bool) : List String → Except Died (List String)
  | [] => .ok []
  | f :: rest =>
    if fs.readable f then
      match checkFiles fs quoted rest with
      | .error d => .error d
      | .ok l => .ok (f :: l)
    else if quoted then .error ⟨1, "Couldn't find input file: '" ++ f ++ "'"⟩
    else .error ⟨1, "Couldn't find input file: " ++ f⟩

/-- Collecting `inputFiles_` (lines 228-255): from the `-filelist` file when
one was given, otherwise from the positional arguments. -/
def loadFiles (fs : FileSys) (c : Config) (pos : List String) : Except Died (List String) :=
  match c.inputFileList with
  | some fl =>
    if fs.readable fl then checkFiles fs true (fs.lines fl)
    else .error ⟨1, "Couldn't find the file list: " ++ fl⟩
  | none => checkFiles fs false pos

/-- One arc of a `StdVectorFst` in the tropical semiring. -/
structure Arc where
  src : ℕ
  ilabel : ℕ
  olabel : ℕ
  weight : ℚ
  dst : ℕ
deriving DecidableEq

/-- A concrete `StdVectorFst`: states are `0 .. numStates-1`. -/
structure LinFst where
  numStates : ℕ
  start : ℕ
  arcs : List Arc
  finals : List (ℕ × ℚ)
deriving DecidableEq

/-- The symbol bookkeeping of `loadText`: the `idHash` map (association list
keyed by symbol string) together with the `idList` of tagged symbol names. -/
structure SymTab where
  idHash : List (String × ℕ)
  idList : List String
deriving DecidableEq

/-- `LatticeLM::findId` (lines 146-154): look a string up in `idHash`;
if absent, insert it with the next dense id and push `"x" ++ str` onto
`idList`. -/
def findId (str : String) (tab : SymTab) : ℕ × SymTab :=
  match tab.idHash.lookup str with
  | some v => (v, tab)
  | none =>
    (tab.idHash.length,
     ⟨tab.idHash ++ [(str, tab.idHash.length)], tab.idList ++ ["x" ++ str]⟩)

/-- The token loop of `loadText` (lines 174-178): starting from state `q`,
resolve each token's id and add one arc per token; returns the final state
(`q` plus the number of tokens), the arcs, and the updated table. -/
def procTokens : List String → ℕ → SymTab → ℕ × List Arc × SymTab
  | [], q, tab => (q, [], tab)
  | t :: ts, q, tab =>
    let r := findId t tab
    let rec' := procTokens ts (q + 1) r.2
    (rec'.1, ⟨q, r.1, r.1, 0, q + 1⟩ :: rec'.2.1, rec'.2.2)

/-- One `getline` iteration of `loadText` (lines 169-186): build the linear
FST for a line, or die when the line holds no token (lines 180-184). -/
def procLine (fname line : String) (tab : SymTab) : Except Died (LinFst × SymTab) :=
  let toks := tokenize line
  let r := procTokens toks 0 tab
  if r.1 = 0 then
    .error ⟨1, "Empty line found in " ++ fname ++
      "\nPlease ensure that each line in the training file contains at least one symbol."⟩
  else .ok (⟨r.1 + 1, 0, r.2.1, [(r.1, 0)]⟩, r.2.2)

/-- All lines of one input file, accumulating the produced FSTs in order. -/
def procLines (fname : String) : List String → SymTab → List LinFst →
    Except Died (List LinFst × SymTab)
  | [], tab, acc => .ok (acc, tab)
  | ln :: lns, tab, acc =>
    match procLine fname ln tab with
    | .error d => .error d
    | .ok r => procLines fname lns r.2 (acc ++ [r.1])

/-- The outer file loop of `loadText` (line 166). -/
def procFiles (fs : FileSys) : List String → SymTab → List LinFst →
    Except Died (List LinFst × SymTab)
  | [], tab, acc => .ok (acc, tab)
  | f :: rest, tab, acc =>
    match procLines f (fs.lines f) tab acc with
    | .error d => .error d
    | .ok r => procFiles fs rest r.2 r.1

/-- `LatticeLM::loadText` (lines 155-191), also exposing the final `idHash`:
seed the table with `<eps>`, `<phi>` and the untracked `x<unk>`/`x</unk>`
entries, convert every line of every file, then append the `w<s>` marker. -/
def loadTextH (fs : FileSys) (files : List String) :
    Except Died (List LinFst × SymTab) :=
  let t1 := (findId "<eps>" ⟨[], []⟩).2
  let t2 := (findId "<phi>" t1).2
  let t3 : SymTab := ⟨t2.idHash, t2.idList ++ ["x<unk>", "x</unk>"]⟩
  match procFiles fs files t3 [] with
  | .error d => .error d
  | .ok r => .ok (r.1, ⟨r.2.idHash, r.2.idList ++ ["w<s>"]⟩)

/-- `LatticeLM::loadText` as the caller sees it: the input FSTs and the
returned `idList` (the `idHash` is local to the function). -/
def loadText (fs : FileSys) (files : List String) :
    Except Died (List LinFst × List String) :=
  match loadTextH fs files with
  | .error d => .error d
  | .ok r => .ok (r.1, r.2.idList)

/-- The id a string has in a hash, with the (never exercised) default 0. -/
def lookupD (h : List (String × ℕ)) (s : String) : ℕ :=
  (h.lookup s).getD 0

/-- The arcs of a linear FST over the given labels, starting at state `q`. -/
def mkArcs : ℕ → List ℕ → List Arc
  | _, [] => []
  | q, lab :: labs => ⟨q, lab, lab, 0, q + 1⟩ :: mkArcs (q + 1) labs

/-- The linear FST a text line with the given token labels is turned into:
one state per token plus one, one arc per token carrying the token's id as
both input and output label with weight 0, and a zero-weight final state. -/
def mkLinear (labs : List ℕ) : LinFst :=
  ⟨labs.length + 1, 0, mkArcs 0 labs, [(labs.length, 0)]⟩

/-- The token lists of all lines of all input files, in processing order. -/
def textLines (fs : FileSys) (files : List String) : List (List String) :=
  (files.map (fun f => (fs.lines f).map tokenize)).flatten

/-- The observable state of a `LexFst<WordId,CharId>` (its arcs are the
out-of-scope WFST mechanics): the word spellings, the symbol table, the
permanent symbols it was initialised with, and the separator string. -/
structure LexState where
  words : List (List CharId)
  symbols : List String
  permSymbols : List String
  sep : String
deriving DecidableEq

/-- Modelled from the spec: `LexFst::getNumChars` (`lexfst.h` is not under
`src/`).  Per the spec's symbol-table layout, positions 2 .. 2+U-1 hold the
U character symbols (tag prefix "x") and 0, 1 hold epsilon and phi, so U is
the number of "x"-tagged symbols minus those two. -/
def getNumChars (syms : List String) : ℕ :=
  (syms.countP (fun s => headIs s 'x')) - 2

/-- Modelled from the spec: `LexFst::addWord` (`lexfst.h` is not under
`src/`).  Idempotent: an existing spelling returns its id; a new spelling is
appended to `words` and the symbol table is extended with `"w"` plus the
join, via the separator, of the characters' names (their symbols with the
one-character tag stripped). -/
def addWordL (lex : LexState) (chars : List CharId) : ℕ × LexState :=
  if chars ∈ lex.words then (lex.words.indexOf chars, lex)
  else
    (lex.words.length,
     { lex with
        words := lex.words ++ [chars],
        symbols := lex.symbols ++
          ["w" ++ String.intercalate lex.sep
              (chars.map (fun ch => ((lex.symbols.getD ch "").drop 1)))] })

/-- Modelled from the spec: `LexFst::load` (`lexfst.h` is not under `src/`)
initialises the symbol table from the symbol file given in FST mode. -/
def loadSyms (fs : FileSys) (sf : String) : List String :=
  fs.lines sf

/-- The state `loadProperties` leaves behind for `train` on success. -/
structure LoadedState where
  config : Config
  inputFiles : List String
  inputFsts : List (Option LinFst)
  histories : List (List WordId)
  lex : LexState
  unkSymbolSize : ℕ
deriving DecidableEq

/-- The final sanity checks of `loadProperties` (lines 270-288) and the
assembly of the loaded state: `histories_` is resized to the number of input
FSTs and `unkSymbolSize_` is taken from the lexicon's symbol count. -/
def finishLoad (c : Config) (files : List String) (syms : List String)
    (fsts : List (Option LinFst)) : Except Died LoadedState :=
  if files.length = 0 then .error ⟨1, "No input files specified"⟩
  else if c.outPfx.length = 0 then .error ⟨1, "No output prefix was specified"⟩
  else .ok
    { config := c, inputFiles := files, inputFsts := fsts,
      histories := List.replicate fsts.length [],
      lex := ⟨[], syms, syms, c.sep⟩,
      unkSymbolSize := getNumChars syms }

/-- The part of `loadProperties` after the option loop (lines 226-289, with
the cache-forcing of line 225 already applied to `c`): collect and check the
input files, then either demand a symbol file (FST mode, where `inputFsts_`
is resized to empty slots) or run `loadText`, and run the sanity checks. -/
def loadStage2 (fs : FileSys) (c : Config) (pos : List String) :
    Except Died LoadedState :=
  match loadFiles fs c pos with
  | .error d => .error d
  | .ok files =>
    if c.inputType = 0 then
      match c.symbolFile with
      | none => .error ⟨1, "No symbol file was set"⟩
      | some sf =>
        finishLoad c files (loadSyms fs sf) (List.replicate files.length none)
    else
      match loadText fs files with
      | .error d => .error d
      | .ok r2 => finishLoad c files r2.2 (r2.1.map some)

/-- `LatticeLM::loadProperties` (lines 193-289): parse the options, force
input caching in text mode (line 225), and run the rest of the loading. -/
def loadProperties (args : List String) (fs : FileSys) : Except Died LoadedState :=
  match parseArgs defaultConfig args with
  | .error d => .error d
  | .ok r =>
    loadStage2 fs (if r.1.inputType = 1 then { r.1 with cacheInput := true } else r.1) r.2

/-- The operations `latticelm.h` invokes on a `PyLM<T>`.  `pylm.h` is not
under `src/`, so the LM is an abstract state `σ` with an oracle for each
operation.  `calcSentence` is split on its `doAdd` flag: the spec seats
customers only when `doAdd=true`, so the `doAdd=false` call is modelled as a
pure query (`calcSentenceQuery`), while `calcSentenceAdd` returns the new LM
state alongside the log probability.  `getBasePositions` reads the side
effect list the last add left behind; `trimTrue` is `trim(true)` returning
the remap vector (new dense id, or -1 for a dead dish), `trimFalse` is
`trim(false)`. -/
structure LmOps (σ : Type) (T : Type) where
  removeCustomers : σ → List T → σ
  calcSentenceQuery : σ → List T → List LMProb → ℚ
  calcSentenceAdd : σ → List T → List LMProb → ℚ × σ
  getBasePositions : σ → List ℕ
  trimTrue : σ → List ℤ × σ
  trimFalse : σ → σ
  sampleParameters : σ → σ

/-- The mutable members of `LatticeLM` during `train`, over abstract word-LM
state `σw` and character-LM state `σc`. -/
structure TrainState (σw σc : Type) where
  config : Config
  inputFiles : List String
  inputFsts : List (Option LinFst)
  histories : List (List WordId)
  lex : LexState
  knownLm : σw
  unkLm : σc
  unkBases : List LMProb
  knownLikelihood : ℚ
  unkLikelihood : ℚ
  latticeLikelihood : ℚ
deriving DecidableEq

/-- The state `train` starts from: `unkBases_` is `MAX_WORD_LEN` (1000)
copies of `1/unkSymbolSize_` (line 274) and the likelihoods are zero. -/
def mkTrainState {σw σc : Type} (ld : LoadedState) (kl : σw) (ul : σc) :
    TrainState σw σc :=
  { config := ld.config, inputFiles := ld.inputFiles, inputFsts := ld.inputFsts,
    histories := ld.histories, lex := ld.lex, knownLm := kl, unkLm := ul,
    unkBases := List.replicate 1000 (1 / (ld.unkSymbolSize : ℚ)),
    knownLikelihood := 0, unkLikelihood := 0, latticeLikelihood := 0 }

/-- `words[w]` — the spelling a word id indexes in the lexicon's word list. -/
def wordAt (ws : List (List CharId)) (w : WordId) : List CharId :=
  ws.getD w.toNat []

/-- One observable language-model call made by the sampler, in order. -/
inductive Event where
  | wordRemove (ws : List WordId)
  | charRemove (cs : List CharId)
  | wordCalc (ws : List WordId) (bases : List LMProb) (doAdd : Bool)
  | charCalc (cs : List CharId) (bases : List LMProb) (doAdd : Bool)
deriving DecidableEq

/-- The character-LM loop of `removeSample` (lines 456-457): for each base
position `j`, remove the spelling of `hist[j]` from the character LM. -/
def removeCharLoop {σc : Type} (cops : LmOps σc CharId) (lexW : List (List CharId))
    (hist : List WordId) : List ℕ → σc → σc × List Event
  | [], u => (u, [])
  | j :: js, u =>
    let sp := wordAt lexW (hist.getD j 0)
    let r := removeCharLoop cops lexW hist js (cops.removeCustomers u sp)
    (r.1, Event.charRemove sp :: r.2)

/-- `LatticeLM::removeSample` (lines 452-458): remove the sequence's words
from the word LM, then, for each position the word LM reports in
`getBasePositions`, remove that word's spelling from the character LM. -/
def removeSample {σw σc : Type} (wops : LmOps σw WordId) (cops : LmOps σc CharId)
    (st : TrainState σw σc) (sentId : ℕ) : TrainState σw σc × List Event :=
  let hist := st.histories.getD sentId []
  let klm := wops.removeCustomers st.knownLm hist
  let remPositions := wops.getBasePositions klm
  let knownWords := st.lex.words
  let r := removeCharLoop cops knownWords hist remPositions st.unkLm
  ({ st with knownLm := klm, unkLm := r.1 }, Event.wordRemove hist :: r.2)

/-- The character-LM loop of `addSample` (lines 470-472): for each base
position `j`, add the spelling of `words[j]` to the character LM and
accumulate the summed log probability the loop subtracts from
`unkLikelihood_`. -/
def addCharLoop {σc : Type} (cops : LmOps σc CharId) (lexW : List (List CharId))
    (words : List WordId) (ubases : List LMProb) :
    List ℕ → σc → σc × List Event × ℚ
  | [], u => (u, [], 0)
  | j :: js, u =>
    let sp := wordAt lexW (words.getD j 0)
    let rc := cops.calcSentenceAdd u sp ubases
    let r := addCharLoop cops lexW words ubases js rc.2
    (r.1, Event.charCalc sp ubases true :: r.2.1, rc.1 + r.2.2)

/-- `LatticeLM::addSample` (lines 461-473): compute each word's base
probability as `exp` of the character LM's `calcSentence` on its spelling
with `doAdd=false`, add the sequence to the word LM via `calcSentence` with
`doAdd=true`, then add the spelling of each word at a returned base
position to the character LM.  `exp` (libm) is the abstract `expF`. -/
def addSample {σw σc : Type} (wops : LmOps σw WordId) (cops : LmOps σc CharId)
    (expF : ℚ → ℚ) (st : TrainState σw σc) (sentId : ℕ) :
    TrainState σw σc × List Event :=
  let words := st.histories.getD sentId []
  let knownWords := st.lex.words
  let knownBases := words.map
    (fun w => expF (cops.calcSentenceQuery st.unkLm (wordAt knownWords w) st.unkBases))
  let evQ := words.map
    (fun w => Event.charCalc (wordAt knownWords w) st.unkBases false)
  let rK := wops.calcSentenceAdd st.knownLm words knownBases
  let addPositions := wops.getBasePositions rK.2
  let rU := addCharLoop cops knownWords words st.unkBases addPositions st.unkLm
  let st' := { st with
                knownLm := rK.2, unkLm := rU.1,
                knownLikelihood := st.knownLikelihood - rK.1,
                unkLikelihood := st.unkLikelihood - rU.2.2 }
  (st', evQ ++ Event.wordCalc words knownBases true :: rU.2.1)

/-- Symbolic WFST terms naming the automata `singleSample` builds: the
input lattice, the lexicon, the LM transducer (`PylmFst`), compositions,
`Prune` results and `SampGen` results.  Their semantics (state counts, path
weights, parses) live in the oracle `FstEnv`, since the WFST library is an
external collaborator. -/
inductive AbsFst where
  | input (sentId : ℕ)
  | lex
  | pylm
  | compose (a b : AbsFst)
  | prune (f : AbsFst) (threshold : ℚ)
  | samp (f : AbsFst) (nbest : ℕ) (anneal : ℚ)
deriving DecidableEq

/-- Oracles for the out-of-scope WFST library and `sampgen.h`. -/
structure FstEnv where
  readFst : String → LinFst
  numStates : AbsFst → ℕ
  parseSample : LexState → AbsFst → List WordId × LexState
  pathWeight : AbsFst → ℚ

/-- Modelled from the spec: `WeightedMapper` (`weighted-mapper.h` is not
under `src/`) applies the acoustic scale `amScale` to every arc weight. -/
def mapWeighted (scale : ℚ) (f : LinFst) : LinFst :=
  { f with arcs := f.arcs.map (fun a => { a with weight := scale * a.weight }) }

/-- `ArcSort(ret, OLabelCompare)` (line 485): sort arcs by output label. -/
def arcSortOLabel (f : LinFst) : LinFst :=
  { f with arcs := f.arcs.mergeSort (fun a b => a.olabel ≤ b.olabel) }

/-- `inputFsts_.resize(sentId+1, 0); inputFsts_[sentId] = ret` (line 488). -/
def setCache (l : List (Option LinFst)) (i : ℕ) (v : LinFst) :
    List (Option LinFst) :=
  let l' := if l.length ≤ i then l ++ List.replicate (i + 1 - l.length) none else l
  l'.set i (some v)

/-- `LatticeLM::createInputFst` (lines 476-492): return the cached FST when
caching is on and the slot is filled; otherwise read the file from disk,
apply the `WeightedMapper` with `amScale_`, arc-sort, and cache the result
when caching is on.  The final `Bool` records whether this call applied the
mapper (true exactly on the load-from-disk branch). -/
def createInputFst {σw σc : Type} (env : FstEnv) (st : TrainState σw σc)
    (sentId : ℕ) : LinFst × TrainState σw σc × Bool :=
  if st.config.cacheInput = true ∧ sentId < st.inputFsts.length ∧
      (st.inputFsts.getD sentId none).isSome then
    ((st.inputFsts.getD sentId none).getD ⟨0, 0, [], []⟩, st, false)
  else
    let nextFst := env.readFst (st.inputFiles.getD sentId "")
    let ret := arcSortOLabel (mapWeighted st.config.amScale nextFst)
    let st' :=
      if st.config.cacheInput then
        { st with inputFsts := setCache st.inputFsts sentId ret }
      else st
    (ret, st', true)

/-- A sequence of `createInputFst` calls; the returned list holds one entry
per application of the `WeightedMapper` (the sequence id that was mapped). -/
def runCreates {σw σc : Type} (env : FstEnv) :
    List ℕ → TrainState σw σc → TrainState σw σc × List ℕ
  | [], st => (st, [])
  | i :: rest, st =>
    let r := createInputFst env st i
    let r2 := runCreates env rest r.2.1
    (r2.1, (if r.2.2 then [i] else []) ++ r2.2)

/-- A `THROW_ERROR` outcome of `singleSample`: the FSTs dumped to disk for
debugging and the diagnostic message. -/
structure DumpDied where
  dumpedFiles : List String
  msg : String
deriving DecidableEq

/-- The composition `input ⊗ lexicon ⊗ LM` built in lines 408-414. -/
def ilpFstOf (sentId : ℕ) : AbsFst :=
  .compose (.compose (.input sentId) .lex) .pylm

/-- The FST `singleSample` goes on to sample from (lines 417-421): the
composition pruned by the beam when `pruneThreshold_ != 0`, otherwise the
composition itself (copied unpruned into `prunedFst`). -/
def prunedFstOf (t : ℚ) (sentId : ℕ) : AbsFst :=
  if t ≠ 0 then .prune (ilpFstOf sentId) t else ilpFstOf sentId

/-- `LatticeLM::singleSample` (lines 402-449): remove the old analysis when
one exists, build and (conditionally) prune the composed FST, abort dumping
the four component FSTs when it has one state or fewer, otherwise sample a
path, parse it into `histories_[sentId]` (which may grow the lexicon), add
the new analysis to the LMs, and accumulate the lattice likelihood.  The
returned event list is the sequence of LM calls made. -/
def singleSample {σw σc : Type} (wops : LmOps σw WordId) (cops : LmOps σc CharId)
    (env : FstEnv) (expF : ℚ → ℚ) (st : TrainState σw σc) (sentId : ℕ)
    (anneal : ℚ) : Except DumpDied (TrainState σw σc × List Event) :=
  let r0 :=
    if (st.histories.getD sentId []) ≠ [] then removeSample wops cops st sentId
    else (st, [])
  let r1 := createInputFst env r0.1 sentId
  let prunedF := prunedFstOf st.config.pruneThreshold sentId
  if env.numStates prunedF ≤ 1 then
    .error ⟨["inputFst.fst", "ilFst.fst", "ilpFst.fst", "pylmFst.fst"],
            "Pruned FST has one or fewer states\n"⟩
  else
    let sampledF := AbsFst.samp prunedF 1 anneal
    let rp := env.parseSample r1.2.1.lex sampledF
    let st2 := { r1.2.1 with histories := r1.2.1.histories.set sentId rp.1, lex := rp.2 }
    let r2 := addSample wops cops expF st2 sentId
    let st3 := { r2.1 with latticeLikelihood := r2.1.latticeLikelihood + env.pathWeight sampledF }
    .ok (st3, r0.2 ++ r2.2)

/-- `LatticeLM::trimModels` (lines 332-354): take the remap from the word
LM's `trim(true)`, trim the character LM with `trim(false)`, rebuild the
lexicon (same separator and permanent symbols) adding exactly the words
whose remap entry is not -1, and remap every history entry. -/
def trimModels {σw σc : Type} (wops : LmOps σw WordId) (cops : LmOps σc CharId)
    (st : TrainState σw σc) : TrainState σw σc :=
  let rT := wops.trimTrue st.knownLm
  let ulm := cops.trimFalse st.unkLm
  let knownWords := st.lex.words
  let nextLex0 : LexState := ⟨[], st.lex.permSymbols, st.lex.permSymbols, st.lex.sep⟩
  let nextLex := knownWords.enum.foldl
    (fun lx p => if rT.1.getD p.1 (-1) ≠ -1 then (addWordL lx p.2).2 else lx)
    nextLex0
  let hists := st.histories.map (fun h => h.map (fun w => rT.1.getD w.toNat (-1)))
  { st with
      knownLm := rT.2, unkLm := ulm, lex := nextLex, histories := hists }

/-- The annealing level computation of `train` (lines 305-308): first the
quantised integer division `(int)(iter+annealStepLength_-1)/annealStepLength_`
is stored into the double `annealLevel_`; only when that value is nonzero is
it reassigned to `1.0/max(1.0, numAnnealSteps_ - annealLevel_)`. -/
def annealLevelAt (iter L n : ℕ) : ℚ :=
  let a : ℕ := (iter + L - 1) / L
  if a = 0 then 0 else 1 / max 1 ((n : ℚ) - (a : ℚ))

/-- The annealing level epoch `iter` runs `iterateSamples` with. -/
def epochAnnealLevel (c : Config) (iter : ℕ) : ℚ :=
  annealLevelAt iter c.annealStepLength c.numAnnealSteps

/-- The annealing formula exactly as claim C2 states it:
`1 / max(1, numAnnealSteps − ⌊(k + annealStepLength − 1)/annealStepLength⌋)`
with a quantised (integer) inner division. -/
def claimAnnealLevel (k L n : ℕ) : ℚ :=
  1 / max 1 ((n : ℚ) - (((k + L - 1) / L : ℕ) : ℚ))

/-- The trim condition of `train` (line 318): `iter % trimRate_ == 0`. -/
def epochTrimCond (c : Config) (iter : ℕ) : Bool :=
  iter % c.trimRate == 0

/-- The snapshot condition of `train` (line 322):
`iter >= numBurnIn_ && (iter-numBurnIn_) % sampleRate_ == 0` (the second
conjunct is short-circuited away when the first fails). -/
def epochEmits (c : Config) (iter : ℕ) : Bool :=
  decide (c.numBurnIn ≤ iter) && decide ((iter - c.numBurnIn) % c.sampleRate = 0)

/-- The file-name logic shared by `writeLm`, `writeSamples` and
`writeSymbols` (lines 521-527, 535-541, 504-510): fall back to a default
name when the given one is empty, then append `"." ++ iter` when the
iteration index is nonnegative. -/
def writeName (fileName dflt : String) (iter : ℤ) : String :=
  let fn := if fileName.length = 0 then dflt else fileName
  if 0 ≤ iter then fn ++ "." ++ Nat.repr iter.toNat else fn

/-- The four files `printSample(iter)` writes (lines 376-388): the character
LM to `<prefix>ulm`, the word LM to `<prefix>wlm`, the samples to
`<prefix>samp` and the symbol table to `<prefix>sym`, each suffixed through
`writeName`. -/
def printSampleNames (pfx : String) (iter : ℤ) : List String :=
  [writeName (pfx ++ "ulm") (pfx ++ "lm") iter,
   writeName (pfx ++ "wlm") (pfx ++ "lm") iter,
   writeName (pfx ++ "samp") (pfx ++ "samp") iter,
   writeName (pfx ++ "sym") (pfx ++ "sym") iter]

/-- The snapshot files epoch `iter` emits: the `printSample(iter)` files
when the snapshot condition holds, nothing otherwise. -/
def emittedFilesAt (c : Config) (iter : ℕ) : List String :=
  if epochEmits c iter then printSampleNames c.outPfx (iter : ℤ) else []

/-- The inner token loop of `writeSamples` (lines 545-548): a space before
every token except the first, then the symbol with its first character
(the "w" tag) stripped by `.substr(1)`. -/
def sampleLineLoop (wordSyms : List String) : List WordId → ℕ → String
  | [], _ => ""
  | w :: ws, j =>
    (if j ≠ 0 then " " else "") ++ (wordSyms.getD w.toNat "").drop 1 ++
      sampleLineLoop wordSyms ws (j + 1)

/-- `LatticeLM::writeSamples` (lines 535-552) as the list of lines written:
one line per history, rendered against the word region of the symbol table
(the caller passes `&symbols[2+unkSymbolSize_]`, line 382). -/
def writeSamplesLines (wordSyms : List String) (hists : List (List WordId)) :
    List String :=
  hists.map (fun h => sampleLineLoop wordSyms h 0)

/-- `LatticeLM::iterateSamples` (lines 390-400): run `singleSample` on every
sequence index in `mySamples_` order (0, 1, ..., n-1); a `THROW_ERROR`
escapes the loop. -/
def iterateSamples {σw σc : Type} (wops : LmOps σw WordId) (cops : LmOps σc CharId)
    (env : FstEnv) (expF : ℚ → ℚ) (st : TrainState σw σc) (anneal : ℚ) :
    Except DumpDied (TrainState σw σc) :=
  (List.range st.inputFsts.length).foldlM
    (fun s i => (singleSample wops cops env expF s i anneal).map Prod.fst) st

/-- What one epoch of `train` did, besides its state change. -/
structure EpochResult (σw σc : Type) where
  state : TrainState σw σc
  annealUsed : ℚ
  trimmed : Bool
  emitted : List String

/-- One iteration of the `train` loop (lines 300-327): reset the likelihood
accumulators, set the annealing level, resample every sequence, resample
the LM hyperparameters, trim every `trimRate_` epochs, and emit a snapshot
past burn-in every `sampleRate_` epochs. -/
def trainEpoch {σw σc : Type} (wops : LmOps σw WordId) (cops : LmOps σc CharId)
    (env : FstEnv) (expF : ℚ → ℚ) (st : TrainState σw σc) (iter : ℕ) :
    Except DumpDied (EpochResult σw σc) :=
  let st0 := { st with knownLikelihood := 0, unkLikelihood := 0, latticeLikelihood := 0 }
  let lvl := epochAnnealLevel st.config iter
  match iterateSamples wops cops env expF st0 lvl with
  | .error d => .error d
  | .ok st1 =>
    let st2 := { st1 with
                  knownLm := wops.sampleParameters st1.knownLm,
                  unkLm := cops.sampleParameters st1.unkLm }
    let st3 := if epochTrimCond st.config iter then trimModels wops cops st2 else st2
    .ok ⟨st3, lvl, epochTrimCond st.config iter, emittedFilesAt st.config iter⟩

/-- Trivial word/character LM oracle over the unit state, for witnesses. -/
def lmOpsU {T : Type} : LmOps Unit T :=
  ⟨fun _ _ => (), fun _ _ _ => 0, fun _ _ _ => (0, ()), fun _ => [],
   fun _ => ([], ()), fun _ => (), fun _ => ()⟩

/-- A WFST oracle whose automata all have zero states, for witnesses. -/
def fstEnvZero : FstEnv :=
  ⟨fun _ => ⟨0, 0, [], []⟩, fun _ => 0, fun l _ => ([], l), fun _ => 0⟩

/-- A small concrete training state over unit LM states, for witnesses. -/
def trainStateU : TrainState Unit Unit :=
  { config := defaultConfig, inputFiles := [], inputFsts := [],
    histories := [[]], lex := ⟨[], [], [], ""⟩, knownLm := (), unkLm := (),
    unkBases := [], knownLikelihood := 0, unkLikelihood := 0,
    latticeLikelihood := 0 }

/-- The full LM call sequence claim C1 describes for one `singleSample` on
sequence `sentId`: when the stored history is non-empty, `removeCustomers`
on the word LM followed by one character-LM `removeCustomers` on the
spelling of the history word at each reported base position; then, with the
freshly parsed history, one character-LM `calcSentence(..., doAdd=false)`
per token — whose exponentiated results are exactly the word base
probabilities — the word-LM `calcSentence(newHist, bases, doAdd=true)`, and
one character-LM `calcSentence(spelling, ..., doAdd=true)` for each base
position the word LM then reports. -/
def claimTraceC1 {σw σc : Type} (wops : LmOps σw WordId) (cops : LmOps σc CharId)
    (env : FstEnv) (expF : ℚ → ℚ) (st : TrainState σw σc) (sentId : ℕ)
    (anneal : ℚ) : List Event :=
  let hist := st.histories.getD sentId []
  let remPos := wops.getBasePositions (wops.removeCustomers st.knownLm hist)
  let removeEvs :=
    if hist ≠ [] then
      Event.wordRemove hist ::
        remPos.map (fun j => Event.charRemove (wordAt st.lex.words (hist.getD j 0)))
    else []
  let klmR := if hist ≠ [] then wops.removeCustomers st.knownLm hist else st.knownLm
  let ulmR :=
    if hist ≠ [] then (removeCharLoop cops st.lex.words hist remPos st.unkLm).1
    else st.unkLm
  let sampledF := AbsFst.samp (prunedFstOf st.config.pruneThreshold sentId) 1 anneal
  let rp := env.parseSample st.lex sampledF
  let newHist := rp.1
  let lexW := rp.2.words
  let bases := newHist.map
    (fun w => expF (cops.calcSentenceQuery ulmR (wordAt lexW w) st.unkBases))
  let addPos := wops.getBasePositions (wops.calcSentenceAdd klmR newHist bases).2
  removeEvs
    ++ newHist.map (fun w => Event.charCalc (wordAt lexW w) st.unkBases false)
    ++ Event.wordCalc newHist bases true
    :: addPos.map (fun j => Event.charCalc (wordAt lexW (newHist.getD j 0)) st.unkBases true)

/-- A WFST oracle whose automata all have five states, for witnesses. -/
def fstEnvFive : FstEnv :=
  ⟨fun _ => ⟨0, 0, [], []⟩, fun _ => 5, fun l _ => ([], l), fun _ => 0⟩

/-- The configuration `-burnin 5` parses to, for the C10 witness. -/
def cfg5 : Config := { defaultConfig with numBurnIn := 5 }

/-- A concrete training state with input caching on, for the C10 witness. -/
def trainStateC : TrainState Unit Unit :=
  { trainStateU with config := { defaultConfig with cacheInput := true } }

/-- The input-file list a configuration denotes: the lines of the
`-filelist` file when one was given, otherwise the positional arguments. -/
def inputFilesOf (c : Config) (pos : List String) (fs : FileSys) : List String :=
  match c.inputFileList with
  | some fl => fs.lines fl
  | none => pos

/-- The configuration-error situations claim C7 lists. -/
def ConfigErr (args : List String) (fs : FileSys) : Prop :=
  (∃ d, parseArgs defaultConfig args = .error d) ∨
  (∃ c pos, parseArgs defaultConfig args = .ok (c, pos) ∧
    ((c.inputType = 0 ∧ c.symbolFile = none) ∨
     inputFilesOf c pos fs = [] ∨
     c.outPfx = "" ∨
     (∃ fl, c.inputFileList = some fl ∧ fs.readable fl = false) ∨
     (∃ f ∈ inputFilesOf c pos fs, fs.readable f = false)))

/-- A trivial file system where every path opens and holds no lines. -/
def trivFs : FileSys := ⟨fun _ => true, fun _ => []⟩

/-- `h2` extends `h1`: every binding present in `h1` is intact in `h2`. -/
def hashExt (h1 h2 : List (String × ℕ)) : Prop :=
  ∀ s v, h1.lookup s = some v → h2.lookup s = some v

/-- `tab'` grows `tab`'s symbol list only by "x"-tagged entries. -/
def idListExt (tab tab' : SymTab) : Prop :=
  ∃ toks : List String, tab'.idList = tab.idList ++ toks.map (fun t => "x" ++ t)

/-- A file system with one line "a b" in every file, for witnesses. -/
def fs1 : FileSys := ⟨fun _ => true, fun _ => ["a b"]⟩

/-- The symbol table `loadTextH` builds on `fs1`'s single line. -/
def tabW : SymTab :=
  ⟨[("<eps>", 0), ("<phi>", 1), ("a", 2), ("b", 3)],
   ["x<eps>", "x<phi>", "x<unk>", "x</unk>", "xa", "xb", "w<s>"]⟩

/-! ## Theorems -/

/-- C2, counterexample: at epoch 0 under the default configuration
(annealStepLength 3, numAnnealSteps 5) the quantised floor is 0, so the code
leaves `annealLevel_` at 0, while the claimed formula yields
`1/max(1, 5-0) = 1/5`. -/
theorem c2_counterexample :
    epochAnnealLevel defaultConfig 0 = 0 ∧
    claimAnnealLevel 0 defaultConfig.annealStepLength defaultConfig.numAnnealSteps
      = 1 / 5 ∧
    epochAnnealLevel defaultConfig 0 ≠
      claimAnnealLevel 0 defaultConfig.annealStepLength defaultConfig.numAnnealSteps := by
  have h1 : epochAnnealLevel defaultConfig 0 = 0 := by
    show annealLevelAt 0 3 5 = 0
    simp only [annealLevelAt]
    norm_num
  have h2 : claimAnnealLevel 0 defaultConfig.annealStepLength
      defaultConfig.numAnnealSteps = 1 / 5 := by
    show claimAnnealLevel 0 3 5 = 1 / 5
    simp only [claimAnnealLevel]
    norm_num
  exact ⟨h1, h2, by rw [h1, h2]; norm_num⟩

/-- C2, amended: for every epoch k ≥ 1 the annealing level equals
`1 / max(1, numAnnealSteps − ⌊(k + annealStepLength − 1)/annealStepLength⌋)`
with a quantised integer inner division; at epoch 0 (where that floor is 0)
the level is 0, not the formula's value. -/
theorem c2_anneal_schedule_amended (c : Config) (k : ℕ)
    (hL : 1 ≤ c.annealStepLength) :
    (1 ≤ k → epochAnnealLevel c k =
      claimAnnealLevel k c.annealStepLength c.numAnnealSteps) ∧
    epochAnnealLevel c 0 = 0 := by
  constructor
  · intro hk
    have ha : 1 ≤ (k + c.annealStepLength - 1) / c.annealStepLength := by
      rw [Nat.one_le_div_iff (by omega)]
      omega
    simp only [epochAnnealLevel, annealLevelAt, claimAnnealLevel]
    rw [if_neg (by omega)]
  · have h0 : (0 + c.annealStepLength - 1) / c.annealStepLength = 0 :=
      Nat.div_eq_of_lt (by omega)
    simp only [epochAnnealLevel, annealLevelAt]
    rw [if_pos h0]

/-- C2, witness: at epoch 3 under the defaults the theorem applies and both
sides evaluate to 1/4. -/
theorem c2_witness :
    1 ≤ defaultConfig.annealStepLength ∧
    epochAnnealLevel defaultConfig 3 =
      claimAnnealLevel 3 defaultConfig.annealStepLength defaultConfig.numAnnealSteps :=
  ⟨by decide,
   (c2_anneal_schedule_amended defaultConfig 3 (by decide)).1 (by decide)⟩

/-- C8, counterexample: with `pruneThreshold = -1` the code prunes (the test
is `pruneThreshold_ != 0`), yet `-1 > 0` fails, so the claimed equivalence
"pruned iff pruneThreshold > 0" is false. -/
theorem c8_counterexample :
    prunedFstOf (-1) 0 = AbsFst.prune (ilpFstOf 0) (-1) ∧ ¬ ((-1 : ℚ) > 0) := by
  constructor
  · rw [prunedFstOf, if_pos (by norm_num)]
  · norm_num

/-- C8, amended: the sampler draws from the beam-pruned composition exactly
when `pruneThreshold ≠ 0`, and when `pruneThreshold = 0` the composed FST is
used in full, unpruned. -/
theorem c8_prune_condition_amended (t : ℚ) (s : ℕ) :
    (prunedFstOf t s = AbsFst.prune (ilpFstOf s) t ↔ t ≠ 0) ∧
    (t = 0 → prunedFstOf t s = ilpFstOf s) := by
  constructor
  · constructor
    · intro h ht
      subst ht
      rw [prunedFstOf, if_neg (by simp)] at h
      exact absurd h (by simp [ilpFstOf])
    · intro ht
      rw [prunedFstOf, if_pos ht]
  · intro ht
    subst ht
    rw [prunedFstOf, if_neg (by simp)]

/-- C8, witness: with threshold 0 the composition is used unpruned. -/
theorem c8_witness : prunedFstOf 0 0 = ilpFstOf 0 :=
  (c8_prune_condition_amended 0 0).2 rfl

/-- C4: a snapshot is emitted in epoch `iter` exactly when
`iter ≥ numBurnIn` and `iter - numBurnIn` is a multiple of `sampleRate`; the
emitted files are the word LM, character LM, sample and symbol files, each
carrying the suffix `"." ++ iter`. -/
theorem c4_snapshot_schedule (c : Config) (iter : ℕ) (hr : 0 < c.sampleRate) :
    (epochEmits c iter = true ↔
      c.numBurnIn ≤ iter ∧ c.sampleRate ∣ (iter - c.numBurnIn)) ∧
    (emittedFilesAt c iter = if epochEmits c iter then
        [c.outPfx ++ "ulm" ++ "." ++ Nat.repr iter,
         c.outPfx ++ "wlm" ++ "." ++ Nat.repr iter,
         c.outPfx ++ "samp" ++ "." ++ Nat.repr iter,
         c.outPfx ++ "sym" ++ "." ++ Nat.repr iter]
      else []) ∧
    (∀ name ∈ printSampleNames c.outPfx (iter : ℤ),
      ∃ stem, name = stem ++ "." ++ Nat.repr iter) := by
  have hlen : ∀ s : String, (c.outPfx ++ s).length = c.outPfx.length + s.length :=
    fun s => String.length_append _ _
  have hname : ∀ s d : String, s.length ≠ 0 →
      writeName (c.outPfx ++ s) d (iter : ℤ) =
        c.outPfx ++ s ++ "." ++ Nat.repr iter := by
    intro s d hs
    have hc : ¬((c.outPfx ++ s).length = 0) := by
      rw [hlen]; omega
    simp only [writeName]
    rw [if_pos (Int.natCast_nonneg iter), if_neg hc, Int.toNat_natCast]
  have hulm := hname "ulm" (c.outPfx ++ "lm") (by decide)
  have hwlm := hname "wlm" (c.outPfx ++ "lm") (by decide)
  have hsampname := hname "samp" (c.outPfx ++ "samp") (by decide)
  have hsymname := hname "sym" (c.outPfx ++ "sym") (by decide)
  refine ⟨?_, ?_, ?_⟩
  · simp only [epochEmits, Bool.and_eq_true, decide_eq_true_eq]
    constructor
    · rintro ⟨h1, h2⟩
      exact ⟨h1, (Nat.dvd_iff_mod_eq_zero).mpr h2⟩
    · rintro ⟨h1, h2⟩
      exact ⟨h1, (Nat.dvd_iff_mod_eq_zero).mp h2⟩
  · simp only [emittedFilesAt, printSampleNames, hulm, hwlm, hsampname, hsymname]
  · intro name hn
    simp only [printSampleNames, hulm, hwlm, hsampname, hsymname,
      List.mem_cons, List.not_mem_nil, or_false] at hn
    rcases hn with h | h | h | h
    · exact ⟨c.outPfx ++ "ulm", by rw [h]⟩
    · exact ⟨c.outPfx ++ "wlm", by rw [h]⟩
    · exact ⟨c.outPfx ++ "samp", by rw [h]⟩
    · exact ⟨c.outPfx ++ "sym", by rw [h]⟩

/-- C4, witness: under the defaults epoch 20 (the first past burn-in) emits
a snapshot. -/
theorem c4_witness :
    0 < defaultConfig.sampleRate ∧ epochEmits defaultConfig 20 = true :=
  ⟨by decide,
   ((c4_snapshot_schedule defaultConfig 20 (by decide)).1).mpr (by decide)⟩

/-- C5: when the composed-and-pruned FST has one state or fewer,
`singleSample` aborts with a diagnostic after dumping the input, input⊗lex,
input⊗lex⊗LM and LM component FSTs, and does not continue sampling that
sequence. -/
theorem c5_prune_collapse_aborts {σw σc : Type} (wops : LmOps σw WordId)
    (cops : LmOps σc CharId) (env : FstEnv) (expF : ℚ → ℚ)
    (st : TrainState σw σc) (sentId : ℕ) (anneal : ℚ)
    (h : env.numStates (prunedFstOf st.config.pruneThreshold sentId) ≤ 1) :
    singleSample wops cops env expF st sentId anneal =
      .error ⟨["inputFst.fst", "ilFst.fst", "ilpFst.fst", "pylmFst.fst"],
              "Pruned FST has one or fewer states\n"⟩ := by
  simp only [singleSample]
  rw [if_pos h]

/-- C5, witness: the zero-state oracle trips the collapse check and
`singleSample` aborts with the dump. -/
theorem c5_witness :
    fstEnvZero.numStates (prunedFstOf trainStateU.config.pruneThreshold 0) ≤ 1 ∧
    singleSample lmOpsU lmOpsU fstEnvZero id trainStateU 0 1 =
      .error ⟨["inputFst.fst", "ilFst.fst", "ilpFst.fst", "pylmFst.fst"],
              "Pruned FST has one or fewer states\n"⟩ :=
  ⟨by decide,
   c5_prune_collapse_aborts lmOpsU lmOpsU fstEnvZero id trainStateU 0 1 (by decide)⟩

/-- The character-removal loop emits one `charRemove` event per position,
on the spelling of the history word at that position, in order. -/
theorem removeCharLoop_snd {σc : Type} (cops : LmOps σc CharId)
    (lexW : List (List CharId)) (hist : List WordId) (js : List ℕ) (u : σc) :
    (removeCharLoop cops lexW hist js u).2 =
      js.map (fun j => Event.charRemove (wordAt lexW (hist.getD j 0))) := by
  induction js generalizing u with
  | nil => rfl
  | cons j js ih => simp [removeCharLoop, ih]

/-- The character-add loop emits one `charCalc(..., doAdd=true)` event per
position, on the spelling of the word at that position, in order. -/
theorem addCharLoop_events {σc : Type} (cops : LmOps σc CharId)
    (lexW : List (List CharId)) (words : List WordId) (ubases : List LMProb)
    (js : List ℕ) (u : σc) :
    (addCharLoop cops lexW words ubases js u).2.1 =
      js.map (fun j => Event.charCalc (wordAt lexW (words.getD j 0)) ubases true) := by
  induction js generalizing u with
  | nil => rfl
  | cons j js ih => simp [addCharLoop, ih]

/-- `createInputFst` only touches the input-FST cache: every other member
of the training state is left unchanged. -/
theorem createInputFst_keeps {σw σc : Type} (env : FstEnv)
    (st : TrainState σw σc) (i : ℕ) :
    (createInputFst env st i).2.1.config = st.config ∧
    (createInputFst env st i).2.1.histories = st.histories ∧
    (createInputFst env st i).2.1.lex = st.lex ∧
    (createInputFst env st i).2.1.knownLm = st.knownLm ∧
    (createInputFst env st i).2.1.unkLm = st.unkLm ∧
    (createInputFst env st i).2.1.unkBases = st.unkBases := by
  unfold createInputFst
  split
  · exact ⟨rfl, rfl, rfl, rfl, rfl, rfl⟩
  · dsimp only
    split
    · exact ⟨rfl, rfl, rfl, rfl, rfl, rfl⟩
    · exact ⟨rfl, rfl, rfl, rfl, rfl, rfl⟩

/-- Reading back the entry just written by `List.set`. -/
theorem getD_set_self {α : Type _} (l : List α) (i : ℕ) (a d : α)
    (h : i < l.length) : (l.set i a).getD i d = a := by
  rw [List.getD_eq_getElem?_getD, List.getElem?_set_eq_of_lt a h]
  rfl

/-- C1: whenever `singleSample` visits a sequence and does not abort, the
sequence of LM calls it makes is exactly the one the claim describes:
conditional removal (word LM first, then the character LM once per base
position), then the base-probability queries with `doAdd=false`, the word
LM `calcSentence` with `doAdd=true` on the new history, and the character
LM `calcSentence` with `doAdd=true` at each returned base position. -/
theorem c1_single_sample_call_trace {σw σc : Type} (wops : LmOps σw WordId)
    (cops : LmOps σc CharId) (env : FstEnv) (expF : ℚ → ℚ)
    (st : TrainState σw σc) (sentId : ℕ) (anneal : ℚ)
    (hlen : sentId < st.histories.length)
    (hok : ¬ env.numStates (prunedFstOf st.config.pruneThreshold sentId) ≤ 1) :
    (singleSample wops cops env expF st sentId anneal).map Prod.snd =
      .ok (claimTraceC1 wops cops env expF st sentId anneal) := by
  obtain ⟨hc1, hh1, hl1, hk1, hu1, hb1⟩ :=
    createInputFst_keeps env
      (if (st.histories.getD sentId []) ≠ [] then
        (removeSample wops cops st sentId).1 else st) sentId
  by_cases hh : st.histories.getD sentId [] = []
  · simp only [singleSample, claimTraceC1, hh, ne_eq, not_true_eq_false,
      if_false, if_neg hok, Except.map]
    simp only [hh, ne_eq, not_true_eq_false, if_false] at hc1 hh1 hl1 hk1 hu1 hb1
    simp only [addSample, hc1, hh1, hl1, hk1, hu1, hb1,
      getD_set_self _ _ _ _ hlen, addCharLoop_events, List.nil_append]
  · simp only [singleSample, claimTraceC1, hh, ne_eq, not_false_eq_true,
      if_true, if_neg hok, Except.map]
    simp only [hh, ne_eq, not_false_eq_true, if_true] at hc1 hh1 hl1 hk1 hu1 hb1
    have hrlex : (removeSample wops cops st sentId).1.lex = st.lex := rfl
    have hrhist : (removeSample wops cops st sentId).1.histories = st.histories := rfl
    have hrk : (removeSample wops cops st sentId).1.knownLm =
      wops.removeCustomers st.knownLm (st.histories.getD sentId []) := rfl
    have hru : (removeSample wops cops st sentId).1.unkLm =
      (removeCharLoop cops st.lex.words (st.histories.getD sentId [])
        (wops.getBasePositions
          (wops.removeCustomers st.knownLm (st.histories.getD sentId [])))
        st.unkLm).1 := rfl
    have hrb : (removeSample wops cops st sentId).1.unkBases = st.unkBases := rfl
    have hrev : (removeSample wops cops st sentId).2 =
        Event.wordRemove (st.histories.getD sentId []) ::
          (wops.getBasePositions
            (wops.removeCustomers st.knownLm (st.histories.getD sentId []))).map
            (fun j => Event.charRemove
              (wordAt st.lex.words ((st.histories.getD sentId []).getD j 0))) := by
      simp only [removeSample, removeCharLoop_snd]
    simp only [addSample, hc1, hh1, hl1, hk1, hu1, hb1, hrlex, hrhist, hrk, hru, hrb, hrev,
      getD_set_self _ _ _ _ hlen, addCharLoop_events, List.cons_append, List.nil_append,
      List.append_assoc]

/-- C1, witness: with the unit oracles, a one-state-free environment
reporting 5 states, and the empty-history concrete state, `singleSample`
succeeds and produces exactly the claimed trace. -/
theorem c1_witness :
    0 < trainStateU.histories.length ∧
    ¬ (fstEnvFive.numStates (prunedFstOf trainStateU.config.pruneThreshold 0) ≤ 1) ∧
    (singleSample lmOpsU lmOpsU fstEnvFive id trainStateU 0 1).map Prod.snd =
      .ok (claimTraceC1 lmOpsU lmOpsU fstEnvFive id trainStateU 0 1) :=
  ⟨by decide, by decide,
   c1_single_sample_call_trace lmOpsU lmOpsU fstEnvFive id trainStateU 0 1
     (by decide) (by decide)⟩

/-- `addWordL` never changes the separator. -/
theorem addWordL_sep (lex : LexState) (cs : List CharId) :
    (addWordL lex cs).2.sep = lex.sep := by
  unfold addWordL
  split <;> rfl

/-- `addWordL` never changes the permanent symbols. -/
theorem addWordL_perm (lex : LexState) (cs : List CharId) :
    (addWordL lex cs).2.permSymbols = lex.permSymbols := by
  unfold addWordL
  split <;> rfl

/-- Adding a fresh spelling appends it to the word list. -/
theorem addWordL_words_of_fresh (lex : LexState) (cs : List CharId)
    (h : cs ∉ lex.words) : (addWordL lex cs).2.words = lex.words ++ [cs] := by
  unfold addWordL
  rw [if_neg h]

/-- The lexicon-rebuilding fold of `trimModels` preserves the separator and
the permanent symbols of its accumulator. -/
theorem trimFold_sep_perm (remap : List ℤ) (pairs : List (ℕ × List CharId)) :
    ∀ acc : LexState,
    ((pairs.foldl
        (fun lx p => if remap.getD p.1 (-1) ≠ -1 then (addWordL lx p.2).2 else lx)
        acc).sep = acc.sep ∧
     (pairs.foldl
        (fun lx p => if remap.getD p.1 (-1) ≠ -1 then (addWordL lx p.2).2 else lx)
        acc).permSymbols = acc.permSymbols) := by
  induction pairs with
  | nil => intro acc; exact ⟨rfl, rfl⟩
  | cons p ps ih =>
    intro acc
    rw [List.foldl_cons]
    constructor
    · rw [(ih _).1]
      split
      · exact addWordL_sep _ _
      · rfl
    · rw [(ih _).2]
      split
      · exact addWordL_perm _ _
      · rfl

/-- The lexicon-rebuilding fold of `trimModels` adds exactly the words at
positions whose remap entry is not -1, in order, provided those words are
distinct and none is already in the accumulator. -/
theorem trimFold_words (remap : List ℤ) (pairs : List (ℕ × List CharId)) :
    ∀ acc : LexState,
    ((pairs.filter (fun p => remap.getD p.1 (-1) ≠ -1)).map Prod.snd).Nodup →
    (∀ w ∈ (pairs.filter (fun p => remap.getD p.1 (-1) ≠ -1)).map Prod.snd,
      w ∉ acc.words) →
    (pairs.foldl
        (fun lx p => if remap.getD p.1 (-1) ≠ -1 then (addWordL lx p.2).2 else lx)
        acc).words =
      acc.words ++ (pairs.filter (fun p => remap.getD p.1 (-1) ≠ -1)).map Prod.snd := by
  induction pairs with
  | nil =>
    intro acc _ _
    simp
  | cons p ps ih =>
    intro acc hnd hfr
    by_cases hP : remap.getD p.1 (-1) ≠ -1
    · rw [List.filter_cons_of_pos (by simpa using hP), List.map_cons] at hnd hfr
      rw [List.filter_cons_of_pos (by simpa using hP), List.map_cons]
      rw [List.foldl_cons, if_pos hP]
      have hfresh : p.2 ∉ acc.words := hfr p.2 (List.mem_cons_self _ _)
      have hfr' : ∀ w ∈ (ps.filter
          (fun q => remap.getD q.1 (-1) ≠ -1)).map Prod.snd,
          w ∉ (addWordL acc p.2).2.words := by
        intro w hw
        rw [addWordL_words_of_fresh acc p.2 hfresh, List.mem_append,
          List.mem_singleton]
        push_neg
        refine ⟨hfr w (List.mem_cons_of_mem _ hw), ?_⟩
        intro hwp
        exact (List.nodup_cons.mp hnd).1 (hwp ▸ hw)
      rw [ih ((addWordL acc p.2).2) (List.nodup_cons.mp hnd).2 hfr',
        addWordL_words_of_fresh acc p.2 hfresh, List.append_assoc,
        List.singleton_append]
    · rw [List.filter_cons_of_neg (by simpa using hP)] at hnd hfr
      rw [List.filter_cons_of_neg (by simpa using hP)]
      rw [List.foldl_cons, if_neg hP]
      exact ih acc hnd hfr

/-- C3: the trainer trims exactly in the epochs whose index is a multiple of
`trimRate`, and a trim takes the remap from the word LM's `trim(true)`,
trims the character LM without a remap, rebuilds the lexicon with the same
separator and permanent symbols keeping exactly the words whose remap entry
is not -1, and replaces every `histories[s][j]` by `remap[histories[s][j]]`. -/
theorem c3_trim_schedule_and_effect {σw σc : Type} (wops : LmOps σw WordId)
    (cops : LmOps σc CharId) (st : TrainState σw σc) (iter : ℕ)
    (htr : 0 < st.config.trimRate) (hnd : st.lex.words.Nodup) :
    (epochTrimCond st.config iter = true ↔ st.config.trimRate ∣ iter) ∧
    (trimModels wops cops st).knownLm = (wops.trimTrue st.knownLm).2 ∧
    (trimModels wops cops st).unkLm = cops.trimFalse st.unkLm ∧
    (trimModels wops cops st).lex.sep = st.lex.sep ∧
    (trimModels wops cops st).lex.permSymbols = st.lex.permSymbols ∧
    (trimModels wops cops st).lex.words =
      ((st.lex.words.enum.filter
          (fun p => (wops.trimTrue st.knownLm).1.getD p.1 (-1) ≠ -1)).map Prod.snd) ∧
    (trimModels wops cops st).histories =
      st.histories.map (fun h => h.map
        (fun w => (wops.trimTrue st.knownLm).1.getD w.toNat (-1))) := by
  have hkept : (((st.lex.words.enum).filter
      (fun p => (wops.trimTrue st.knownLm).1.getD p.1 (-1) ≠ -1)).map Prod.snd).Nodup := by
    have h1 : ((st.lex.words.enum).filter
        (fun p => (wops.trimTrue st.knownLm).1.getD p.1 (-1) ≠ -1)).Sublist
        st.lex.words.enum := List.filter_sublist _
    have h2 := h1.map Prod.snd
    rw [List.enum_map_snd] at h2
    exact h2.nodup hnd
  refine ⟨?_, rfl, rfl, ?_, ?_, ?_, rfl⟩
  · simp only [epochTrimCond, beq_iff_eq]
    exact ⟨fun h => (Nat.dvd_iff_mod_eq_zero).mpr h,
           fun h => (Nat.dvd_iff_mod_eq_zero).mp h⟩
  · exact (trimFold_sep_perm _ _ _).1
  · exact (trimFold_sep_perm _ _ _).2
  · exact trimFold_words _ _ _ hkept (fun w _ hw => (List.not_mem_nil w) hw)

/-- C3, witness: with the unit oracles and the concrete state, epoch 0
trims (0 is a multiple of trimRate 1). -/
theorem c3_witness :
    epochTrimCond trainStateU.config 0 = true :=
  ((c3_trim_schedule_and_effect lmOpsU lmOpsU trainStateU 0
      (by decide) (by decide)).1).mpr (Dvd.intro 0 rfl)

set_option maxHeartbeats 3200000 in
/-- No recognised command-line option writes `amScale_`: the option loop
leaves it at whatever the constructor set. -/
theorem parseArgs_amScale_bounded : ∀ (n : ℕ) (args : List String),
    args.length ≤ n → ∀ (c cfg : Config) (pos : List String),
    parseArgs c args = .ok (cfg, pos) → cfg.amScale = c.amScale := by
  intro n
  induction n with
  | zero =>
    intro args hl c cfg pos h
    cases args with
    | nil =>
      simp only [parseArgs, Except.ok.injEq, Prod.mk.injEq] at h
      rw [← h.1]
    | cons a rest => simp at hl
  | succ n ih =>
    intro args hl c cfg pos h
    cases args with
    | nil =>
      simp only [parseArgs, Except.ok.injEq, Prod.mk.injEq] at h
      rw [← h.1]
    | cons a rest =>
      cases rest with
      | nil =>
        rw [parseArgs.eq_def] at h
        dsimp only at h
        by_cases hsw : headIs a '-' = true
        case neg =>
          rw [if_neg hsw] at h
          simp only [Except.ok.injEq, Prod.mk.injEq] at h
          rw [← h.1]
        rw [if_pos hsw] at h
        by_cases hk0 : a = "-burnin"
        · rw [if_pos hk0] at h
          exact Except.noConfusion h
        rw [if_neg hk0] at h
        by_cases hk1 : a = "-annealsteps"
        · rw [if_pos hk1] at h
          exact Except.noConfusion h
        rw [if_neg hk1] at h
        by_cases hk2 : a = "-anneallength"
        · rw [if_pos hk2] at h
          exact Except.noConfusion h
        rw [if_neg hk2] at h
        by_cases hk3 : a = "-samps"
        · rw [if_pos hk3] at h
          exact Except.noConfusion h
        rw [if_neg hk3] at h
        by_cases hk4 : a = "-samprate"
        · rw [if_pos hk4] at h
          exact Except.noConfusion h
        rw [if_neg hk4] at h
        by_cases hk5 : a = "-knownn"
        · rw [if_pos hk5] at h
          exact Except.noConfusion h
        rw [if_neg hk5] at h
        by_cases hk6 : a = "-unkn"
        · rw [if_pos hk6] at h
          exact Except.noConfusion h
        rw [if_neg hk6] at h
        by_cases hk7 : a = "-prune"
        · rw [if_pos hk7] at h
          exact Except.noConfusion h
        rw [if_neg hk7] at h
        by_cases hk8 : a = "-filelist"
        · rw [if_pos hk8] at h
          exact Except.noConfusion h
        rw [if_neg hk8] at h
        by_cases hk9 : a = "-input"
        · rw [if_pos hk9] at h
          exact Except.noConfusion h
        rw [if_neg hk9] at h
        by_cases hk10 : a = "-symbolfile"
        · rw [if_pos hk10] at h
          exact Except.noConfusion h
        rw [if_neg hk10] at h
        by_cases hk11 : a = "-prefix"
        · rw [if_pos hk11] at h
          exact Except.noConfusion h
        rw [if_neg hk11] at h
        by_cases hk12 : a = "-separator"
        · rw [if_pos hk12] at h
          exact Except.noConfusion h
        rw [if_neg hk12] at h
        by_cases hk13 : a = "-cacheinput"
        · rw [if_pos hk13] at h
          have h2 := ih [] (Nat.zero_le n) _ _ _ h
          exact h2
        rw [if_neg hk13] at h
        exact Except.noConfusion h
      | cons v rs =>
        have hr1 : (v :: rs).length ≤ n := by simpa using hl
        have hr2 : rs.length ≤ n := by simp at hr1 ⊢; omega
        rw [parseArgs.eq_def] at h
        dsimp only at h
        by_cases hsw : headIs a '-' = true
        case neg =>
          rw [if_neg hsw] at h
          simp only [Except.ok.injEq, Prod.mk.injEq] at h
          rw [← h.1]
        rw [if_pos hsw] at h
        by_cases hk0 : a = "-burnin"
        · rw [if_pos hk0] at h
          have h2 := ih rs hr2 _ _ _ h
          exact h2
        rw [if_neg hk0] at h
        by_cases hk1 : a = "-annealsteps"
        · rw [if_pos hk1] at h
          have h2 := ih rs hr2 _ _ _ h
          exact h2
        rw [if_neg hk1] at h
        by_cases hk2 : a = "-anneallength"
        · rw [if_pos hk2] at h
          have h2 := ih rs hr2 _ _ _ h
          exact h2
        rw [if_neg hk2] at h
        by_cases hk3 : a = "-samps"
        · rw [if_pos hk3] at h
          have h2 := ih rs hr2 _ _ _ h
          exact h2
        rw [if_neg hk3] at h
        by_cases hk4 : a = "-samprate"
        · rw [if_pos hk4] at h
          have h2 := ih rs hr2 _ _ _ h
          exact h2
        rw [if_neg hk4] at h
        by_cases hk5 : a = "-knownn"
        · rw [if_pos hk5] at h
          have h2 := ih rs hr2 _ _ _ h
          exact h2
        rw [if_neg hk5] at h
        by_cases hk6 : a = "-unkn"
        · rw [if_pos hk6] at h
          have h2 := ih rs hr2 _ _ _ h
          exact h2
        rw [if_neg hk6] at h
        by_cases hk7 : a = "-prune"
        · rw [if_pos hk7] at h
          have h2 := ih rs hr2 _ _ _ h
          exact h2
        rw [if_neg hk7] at h
        by_cases hk8 : a = "-filelist"
        · rw [if_pos hk8] at h
          have h2 := ih rs hr2 _ _ _ h
          exact h2
        rw [if_neg hk8] at h
        by_cases hk9 : a = "-input"
        · rw [if_pos hk9] at h
          by_cases hv1 : v = "fst"
          · rw [if_pos hv1] at h
            have h2 := ih rs hr2 _ _ _ h
            exact h2
          · rw [if_neg hv1] at h
            by_cases hv2 : v = "text"
            · rw [if_pos hv2] at h
              have h2 := ih rs hr2 _ _ _ h
              exact h2
            · rw [if_neg hv2] at h
              exact Except.noConfusion h
        rw [if_neg hk9] at h
        by_cases hk10 : a = "-symbolfile"
        · rw [if_pos hk10] at h
          have h2 := ih rs hr2 _ _ _ h
          exact h2
        rw [if_neg hk10] at h
        by_cases hk11 : a = "-prefix"
        · rw [if_pos hk11] at h
          have h2 := ih rs hr2 _ _ _ h
          exact h2
        rw [if_neg hk11] at h
        by_cases hk12 : a = "-separator"
        · rw [if_pos hk12] at h
          have h2 := ih rs hr2 _ _ _ h
          exact h2
        rw [if_neg hk12] at h
        by_cases hk13 : a = "-cacheinput"
        · rw [if_pos hk13] at h
          have h2 := ih (v :: rs) hr1 _ _ _ h
          exact h2
        rw [if_neg hk13] at h
        exact Except.noConfusion h

/-- `parseArgs` preserves `amScale`, stated without the length bound. -/
theorem parseArgs_amScale (args : List String) (c cfg : Config) (pos : List String)
    (h : parseArgs c args = .ok (cfg, pos)) : cfg.amScale = c.amScale :=
  parseArgs_amScale_bounded args.length args (le_refl _) c cfg pos h

/-- After `setCache l i v`, slot `i` holds `some v`. -/
theorem setCache_getD_self (l : List (Option LinFst)) (i : ℕ) (v : LinFst) :
    (setCache l i v).getD i none = some v := by
  unfold setCache
  split
  next hle =>
    apply getD_set_self
    rw [List.length_append, List.length_replicate]
    omega
  next hle =>
    apply getD_set_self
    omega

/-- `setCache` keeps every already-filled slot filled. -/
theorem setCache_getD_isSome (l : List (Option LinFst)) (i j : ℕ) (v : LinFst)
    (hs : (l.getD j none).isSome) : ((setCache l i v).getD j none).isSome := by
  by_cases hij : j = i
  · subst hij
    rw [setCache_getD_self]
    rfl
  · have hj : j < l.length := by
      by_contra hcon
      rw [List.getD_eq_default _ _ (le_of_not_lt hcon)] at hs
      simp at hs
    unfold setCache
    rw [List.getD_eq_getElem?_getD, List.getElem?_set_ne (by omega)]
    split
    · rw [List.getElem?_append, if_pos hj, ← List.getD_eq_getElem?_getD]
      exact hs
    · rw [← List.getD_eq_getElem?_getD]
      exact hs

/-- When caching is on and the slot is already filled, `createInputFst`
returns the cached FST unchanged: the mapper is not applied and the state
is untouched. -/
theorem createInputFst_cached {σw σc : Type} (env : FstEnv)
    (st : TrainState σw σc) (i : ℕ) (hc : st.config.cacheInput = true)
    (hs : (st.inputFsts.getD i none).isSome) :
    (createInputFst env st i).2.2 = false ∧ (createInputFst env st i).2.1 = st := by
  have hlen : i < st.inputFsts.length := by
    by_contra hcon
    rw [List.getD_eq_default _ _ (le_of_not_lt hcon)] at hs
    simp at hs
  unfold createInputFst
  rw [if_pos ⟨hc, hlen, hs⟩]
  exact ⟨rfl, rfl⟩

/-- Whatever branch `createInputFst` takes, it keeps filled slots filled. -/
theorem createInputFst_preserves_some {σw σc : Type} (env : FstEnv)
    (st : TrainState σw σc) (i j : ℕ)
    (hs : (st.inputFsts.getD j none).isSome) :
    ((createInputFst env st i).2.1.inputFsts.getD j none).isSome := by
  unfold createInputFst
  split
  · exact hs
  · dsimp only
    split
    · exact setCache_getD_isSome _ _ _ _ hs
    · exact hs

/-- When caching is on, the slot `createInputFst` was asked for is filled
afterwards. -/
theorem createInputFst_sets_some {σw σc : Type} (env : FstEnv)
    (st : TrainState σw σc) (i : ℕ) (hc : st.config.cacheInput = true) :
    ((createInputFst env st i).2.1.inputFsts.getD i none).isSome := by
  unfold createInputFst
  split
  next hcond => exact hcond.2.2
  next hcond =>
    dsimp only
    first
      | (rw [setCache_getD_self]; rfl)
      | (rw [if_pos hc]; dsimp only; rw [setCache_getD_self]; rfl)

/-- Once the slot for `sentId` is filled (caching on), no later
`createInputFst` call maps that sequence again. -/
theorem runCreates_count_zero {σw σc : Type} (env : FstEnv) (reqs : List ℕ) :
    ∀ (st : TrainState σw σc) (sentId : ℕ),
    st.config.cacheInput = true →
    (st.inputFsts.getD sentId none).isSome →
    ((runCreates env reqs st).2.count sentId) = 0 := by
  induction reqs with
  | nil => intro st s hc hs; rfl
  | cons i rest ih =>
    intro st s hc hs
    have hc' : (createInputFst env st i).2.1.config = st.config :=
      (createInputFst_keeps env st i).1
    have hs' := createInputFst_preserves_some env st i s hs
    simp only [runCreates]
    rw [List.count_append]
    have hrest := ih (createInputFst env st i).2.1 s (by rw [hc']; exact hc) hs'
    rw [hrest]
    by_cases hii : i = s
    · subst hii
      rw [(createInputFst_cached env st i hc hs).1]
      rfl
    · split
      · simp only [Nat.add_zero]
        rw [List.count_eq_zero]
        simp only [List.mem_singleton]
        exact fun h2 => hii h2.symm
      · rfl

/-- With caching on, any sequence of `createInputFst` calls applies the
mapper to a given sequence id at most once. -/
theorem runCreates_count_le_one {σw σc : Type} (env : FstEnv) (reqs : List ℕ) :
    ∀ (st : TrainState σw σc) (sentId : ℕ),
    st.config.cacheInput = true →
    ((runCreates env reqs st).2.count sentId) ≤ 1 := by
  induction reqs with
  | nil => intro st s hc; exact Nat.zero_le 1
  | cons i rest ih =>
    intro st s hc
    have hc' : (createInputFst env st i).2.1.config = st.config :=
      (createInputFst_keeps env st i).1
    simp only [runCreates]
    rw [List.count_append]
    by_cases hii : i = s
    · subst hii
      have hzero := runCreates_count_zero env rest (createInputFst env st i).2.1 i
        (by rw [hc']; exact hc) (createInputFst_sets_some env st i hc)
      rw [hzero]
      split
      · simp
      · simp
    · have hone := ih (createInputFst env st i).2.1 s (by rw [hc']; exact hc)
      have hcnt : (if (createInputFst env st i).2.2 = true then [i] else []).count s = 0 := by
        split
        · rw [List.count_eq_zero]
          simp only [List.mem_singleton]
          exact fun h2 => hii h2.symm
        · rfl
      omega

/-- Every arc the token loop of `loadText` creates has weight 0. -/
theorem procTokens_arc0 : ∀ (ts : List String) (q : ℕ) (tab : SymTab),
    ∀ a ∈ (procTokens ts q tab).2.1, a.weight = 0 := by
  intro ts
  induction ts with
  | nil =>
    intro q tab a ha
    simp [procTokens] at ha
  | cons t ts ih =>
    intro q tab a ha
    simp only [procTokens, List.mem_cons] at ha
    rcases ha with h | h
    · rw [h]
    · exact ih _ _ a h

/-- Every arc of a line FST built by `loadText` has weight 0. -/
theorem procLine_arc0 (fname line : String) (tab : SymTab) (r : LinFst × SymTab)
    (h : procLine fname line tab = .ok r) : ∀ a ∈ r.1.arcs, a.weight = 0 := by
  unfold procLine at h
  dsimp only at h
  split at h
  · exact absurd h (by simp)
  · simp only [Except.ok.injEq] at h
    intro a ha
    rw [← h] at ha
    exact procTokens_arc0 _ _ _ a ha

/-- `procLines` keeps the all-arcs-weight-0 property of its accumulator. -/
theorem procLines_arc0 (fname : String) : ∀ (lns : List String) (tab : SymTab)
    (acc : List LinFst), (∀ f ∈ acc, ∀ a ∈ f.arcs, a.weight = 0) →
    ∀ out, procLines fname lns tab acc = .ok out →
    ∀ f ∈ out.1, ∀ a ∈ f.arcs, a.weight = 0 := by
  intro lns
  induction lns with
  | nil =>
    intro tab acc hacc out h
    simp only [procLines, Except.ok.injEq] at h
    rw [← h]
    exact hacc
  | cons ln lns ih =>
    intro tab acc hacc out h
    simp only [procLines] at h
    split at h
    · exact absurd h (by simp)
    next r2 hline =>
      refine ih _ _ ?_ out h
      intro f hf
      rcases List.mem_append.mp hf with hf | hf
      · exact hacc f hf
      · rw [List.mem_singleton] at hf
        rw [hf]
        exact procLine_arc0 _ _ _ _ hline

/-- `procFiles` keeps the all-arcs-weight-0 property of its accumulator. -/
theorem procFiles_arc0 (fs : FileSys) : ∀ (files : List String) (tab : SymTab)
    (acc : List LinFst), (∀ f ∈ acc, ∀ a ∈ f.arcs, a.weight = 0) →
    ∀ out, procFiles fs files tab acc = .ok out →
    ∀ f ∈ out.1, ∀ a ∈ f.arcs, a.weight = 0 := by
  intro files
  induction files with
  | nil =>
    intro tab acc hacc out h
    simp only [procFiles, Except.ok.injEq] at h
    rw [← h]
    exact hacc
  | cons fl files ih =>
    intro tab acc hacc out h
    simp only [procFiles] at h
    split at h
    · exact absurd h (by simp)
    next r2 hlines =>
      exact ih _ _ (procLines_arc0 fl _ _ _ hacc r2 hlines) out h

/-- Every arc of every FST `loadTextH` builds has weight 0. -/
theorem loadTextH_arc0 (fs : FileSys) (files : List String)
    (fsts : List LinFst) (tab : SymTab)
    (h : loadTextH fs files = .ok (fsts, tab)) :
    ∀ f ∈ fsts, ∀ a ∈ f.arcs, a.weight = 0 := by
  unfold loadTextH at h
  dsimp only at h
  split at h
  · exact absurd h (by simp)
  next r3 hproc =>
    simp only [Except.ok.injEq, Prod.mk.injEq] at h
    intro f hf
    rw [← h.1] at hf
    exact procFiles_arc0 fs files _ _
      (fun f hf => absurd hf (List.not_mem_nil f)) r3 hproc f hf

/-- Every arc of every FST `loadText` builds has weight 0: text lattices
are unweighted. -/
theorem loadText_arc0 (fs : FileSys) (files : List String)
    (fsts : List LinFst) (syms : List String)
    (h : loadText fs files = .ok (fsts, syms)) :
    ∀ f ∈ fsts, ∀ a ∈ f.arcs, a.weight = 0 := by
  unfold loadText at h
  split at h
  · exact absurd h (by simp)
  next r2 hH =>
    simp only [Except.ok.injEq, Prod.mk.injEq] at h
    intro f hf
    rw [← h.1] at hf
    exact loadTextH_arc0 fs files r2.1 r2.2 (hH.trans rfl) f hf

/-- Inversion of a successful `loadStage2`. -/
theorem loadStage2_ok_inv (fs : FileSys) (c : Config) (pos : List String)
    (ld : LoadedState) (h : loadStage2 fs c pos = .ok ld) :
    ld.config = c ∧
    (c.inputType ≠ 0 →
      ∃ fsts syms, loadText fs ld.inputFiles = .ok (fsts, syms) ∧
        ld.inputFsts = fsts.map some) := by
  unfold loadStage2 at h
  split at h
  · exact absurd h (by simp)
  next files hfiles =>
    split at h
    next htype =>
      split at h
      · exact absurd h (by simp)
      next sf hsf =>
        unfold finishLoad at h
        split at h
        · exact absurd h (by simp)
        · split at h
          · exact absurd h (by simp)
          · simp only [Except.ok.injEq] at h
            exact ⟨by rw [← h], fun hne => absurd htype hne⟩
    next htype =>
      split at h
      · exact absurd h (by simp)
      next r2 htext =>
        unfold finishLoad at h
        split at h
        · exact absurd h (by simp)
        · split at h
          · exact absurd h (by simp)
          · simp only [Except.ok.injEq] at h
            refine ⟨by rw [← h], ?_⟩
            intro _
            refine ⟨r2.1, r2.2, ?_, by rw [← h]⟩
            have hfi : ld.inputFiles = files := by rw [← h]
            rw [hfi, ← htext]

/-- Inversion of a successful `loadProperties`: the parsed configuration,
the cache-forcing step, and (in text mode) the `loadText` output. -/
theorem loadProperties_ok_inv (args : List String) (fs : FileSys)
    (ld : LoadedState) (h : loadProperties args fs = .ok ld) :
    ∃ c pos, parseArgs defaultConfig args = .ok (c, pos) ∧
      ld.config = (if c.inputType = 1 then { c with cacheInput := true } else c) ∧
      (ld.config.inputType ≠ 0 →
        ∃ fsts syms, loadText fs ld.inputFiles = .ok (fsts, syms) ∧
          ld.inputFsts = fsts.map some) := by
  unfold loadProperties at h
  split at h
  · exact absurd h (by simp)
  next r hp =>
    obtain ⟨h1, h2⟩ := loadStage2_ok_inv fs _ r.2 ld h
    refine ⟨r.1, r.2, hp, h1, ?_⟩
    intro hne
    rw [h1] at hne
    exact h2 hne

/-- C10: `amScale` is the fixed constant 0.2 (= 1/5): the constructor sets
it, no command-line option changes it, and any successful load leaves it at
1/5.  The weighted mapper runs only on the load-from-disk branch of
`createInputFst` — with caching on, at most once per file over any call
sequence, and never once a slot is cached — and in text mode every input
lattice is cached up front with all arc weights 0, so text lattices are
never scaled. -/
theorem c10_amscale_fixed :
    defaultConfig.amScale = 1 / 5 ∧
    (∀ (args : List String) (c cfg : Config) (pos : List String),
      parseArgs c args = .ok (cfg, pos) → cfg.amScale = c.amScale) ∧
    (∀ (args : List String) (fs : FileSys) (ld : LoadedState),
      loadProperties args fs = .ok ld → ld.config.amScale = 1 / 5) ∧
    (∀ (args : List String) (fs : FileSys) (ld : LoadedState),
      loadProperties args fs = .ok ld → ld.config.inputType = 1 →
      ld.config.cacheInput = true ∧
      (∀ of ∈ ld.inputFsts, of.isSome) ∧
      (∀ f : LinFst, some f ∈ ld.inputFsts → ∀ a ∈ f.arcs, a.weight = 0)) ∧
    (∀ (σw σc : Type) (env : FstEnv) (st : TrainState σw σc) (i : ℕ),
      st.config.cacheInput = true → (st.inputFsts.getD i none).isSome →
      (createInputFst env st i).2.2 = false ∧ (createInputFst env st i).2.1 = st) ∧
    (∀ (σw σc : Type) (env : FstEnv) (reqs : List ℕ) (st : TrainState σw σc)
      (sentId : ℕ), st.config.cacheInput = true →
      ((runCreates env reqs st).2.count sentId) ≤ 1) := by
  refine ⟨rfl, ?_, ?_, ?_, ?_, ?_⟩
  · intro args c cfg pos h
    exact parseArgs_amScale args c cfg pos h
  · intro args fs ld h
    obtain ⟨c, pos, hp, hcfg, _⟩ := loadProperties_ok_inv args fs ld h
    have hca : c.amScale = defaultConfig.amScale :=
      parseArgs_amScale args defaultConfig c pos hp
    rw [hcfg]
    split
    · exact hca
    · exact hca
  · intro args fs ld h htext
    obtain ⟨c, pos, hp, hcfg, hfsts⟩ := loadProperties_ok_inv args fs ld h
    obtain ⟨fsts, syms, hlt, hmap⟩ := hfsts (by rw [htext]; exact one_ne_zero)
    refine ⟨?_, ?_, ?_⟩
    · rw [hcfg]
      rw [hcfg] at htext
      by_cases hct : c.inputType = 1
      · rw [if_pos hct]
      · rw [if_neg hct] at htext ⊢
        exact absurd htext hct
    · intro of hof
      rw [hmap] at hof
      obtain ⟨f, _, hf⟩ := List.mem_map.mp hof
      rw [← hf]
      rfl
    · intro f hf a ha
      rw [hmap] at hf
      obtain ⟨g, hg, hgf⟩ := List.mem_map.mp hf
      have : g = f := by simpa using hgf
      rw [this] at hg
      exact loadText_arc0 fs ld.inputFiles fsts syms hlt f hg a ha
  · intro σw σc env st i hc hs
    exact createInputFst_cached env st i hc hs
  · intro σw σc env reqs st sentId hc
    exact runCreates_count_le_one env reqs st sentId hc

/-- C10, witness: parsing `-burnin 5` keeps `amScale` at the default, and
with caching on a repeated `createInputFst` maps sequence 0 at most once. -/
theorem c10_witness :
    cfg5.amScale = defaultConfig.amScale ∧
    (runCreates fstEnvZero [0, 0] trainStateC).2.count 0 ≤ 1 :=
  ⟨c10_amscale_fixed.2.1 ["-burnin", "5"] defaultConfig cfg5 [] (by rfl),
   c10_amscale_fixed.2.2.2.2.2 Unit Unit fstEnvZero [0, 0] trainStateC 0 (by rfl)⟩

/-- A string with positive length is not empty. -/
theorem ne_empty_of_length_pos (s : String) (h : 0 < s.length) : s ≠ "" := by
  intro he
  rw [he] at h
  simp at h

/-- Appending to a string with positive length keeps it non-empty. -/
theorem append_ne_empty (s t : String) (h : 0 < s.length) : (s ++ t) ≠ "" := by
  apply ne_empty_of_length_pos
  rw [String.length_append]
  omega

/-- A successful `checkFiles` returns exactly the list it was given, and
every file in it is readable. -/
theorem checkFiles_ok_inv (fs : FileSys) (quoted : Bool) : ∀ (l l' : List String),
    checkFiles fs quoted l = .ok l' →
    l' = l ∧ ∀ f ∈ l, fs.readable f = true := by
  intro l
  induction l with
  | nil =>
    intro l' h
    simp only [checkFiles, Except.ok.injEq] at h
    exact ⟨h.symm, by intro f hf; exact absurd hf (List.not_mem_nil f)⟩
  | cons f rest ih =>
    intro l' h
    simp only [checkFiles] at h
    split at h
    next hread =>
      split at h
      · exact absurd h (by simp)
      next l2 hrec =>
        simp only [Except.ok.injEq] at h
        obtain ⟨he, hall⟩ := ih l2 hrec
        refine ⟨by rw [← h, he], ?_⟩
        intro g hg
        rcases List.mem_cons.mp hg with hg | hg
        · rw [hg]; exact hread
        · exact hall g hg
    next hread =>
      split at h <;> exact absurd h (by simp)

/-- Every `checkFiles` failure carries exit code 1 and a diagnostic. -/
theorem checkFiles_error_inv (fs : FileSys) (quoted : Bool) : ∀ (l : List String)
    (d : Died), checkFiles fs quoted l = .error d →
    d.exitCode = 1 ∧ d.msg ≠ "" := by
  intro l
  induction l with
  | nil =>
    intro d h
    exact absurd h (by simp [checkFiles])
  | cons f rest ih =>
    intro d h
    simp only [checkFiles] at h
    split at h
    · split at h
      next d2 hrec =>
        simp only [Except.error.injEq] at h
        rw [← h]
        exact ih d2 hrec
      · exact absurd h (by simp)
    · split at h
      · simp only [Except.error.injEq] at h
        rw [← h]
        refine ⟨rfl, append_ne_empty _ _ ?_⟩
        rw [String.length_append]
        have h1 : 0 < ("Couldn't find input file: '").length := by decide
        omega
      · simp only [Except.error.injEq] at h
        rw [← h]
        exact ⟨rfl, append_ne_empty _ _ (by decide)⟩

/-- An unreadable file makes `checkFiles` fail. -/
theorem checkFiles_error_exists (fs : FileSys) (quoted : Bool) :
    ∀ (l : List String), (∃ f ∈ l, fs.readable f = false) →
    ∃ d, checkFiles fs quoted l = .error d := by
  intro l
  induction l with
  | nil =>
    intro h
    obtain ⟨f, hf, _⟩ := h
    exact absurd hf (List.not_mem_nil f)
  | cons f rest ih =>
    intro h
    simp only [checkFiles]
    split
    next hread =>
      obtain ⟨g, hg, hgr⟩ := h
      rcases List.mem_cons.mp hg with hg | hg
      · rw [hg] at hgr
        rw [hgr] at hread
        exact absurd hread (by simp)
      · obtain ⟨d, hd⟩ := ih ⟨g, hg, hgr⟩
        rw [hd]
        exact ⟨d, rfl⟩
    next hread =>
      split
      · exact ⟨_, rfl⟩
      · exact ⟨_, rfl⟩

/-- A successful `loadFiles` returns exactly the denoted input files, all
readable, and any file list it used was readable. -/
theorem loadFiles_ok_inv (fs : FileSys) (c : Config) (pos : List String)
    (files : List String) (h : loadFiles fs c pos = .ok files) :
    files = inputFilesOf c pos fs ∧ (∀ f ∈ files, fs.readable f = true) ∧
    (∀ fl, c.inputFileList = some fl → fs.readable fl = true) := by
  unfold loadFiles at h
  split at h
  next fl hfl =>
    split at h
    next hread =>
      obtain ⟨he, hall⟩ := checkFiles_ok_inv fs true _ _ h
      refine ⟨by rw [he, inputFilesOf, hfl], by rw [he]; exact hall, ?_⟩
      intro fl2 hfl2
      rw [hfl] at hfl2
      cases hfl2
      exact hread
    · exact absurd h (by simp)
  next hfl =>
    obtain ⟨he, hall⟩ := checkFiles_ok_inv fs false _ _ h
    exact ⟨by rw [he, inputFilesOf, hfl], by rw [he]; exact hall,
      fun fl2 hfl2 => absurd hfl2 (by rw [hfl]; simp)⟩

/-- Every `loadFiles` failure carries exit code 1 and a diagnostic. -/
theorem loadFiles_error_inv (fs : FileSys) (c : Config) (pos : List String)
    (d : Died) (h : loadFiles fs c pos = .error d) :
    d.exitCode = 1 ∧ d.msg ≠ "" := by
  unfold loadFiles at h
  split at h
  next fl hfl =>
    split at h
    · exact checkFiles_error_inv fs true _ d h
    · simp only [Except.error.injEq] at h
      rw [← h]
      exact ⟨rfl, append_ne_empty _ _ (by decide)⟩
  next hfl => exact checkFiles_error_inv fs false _ d h

set_option maxHeartbeats 3200000 in
/-- Every `parseArgs` failure (bad `-input` value, unknown option, or a
value read past the end of `argv`) carries exit code 1 and a diagnostic. -/
theorem parseArgs_error_bounded : ∀ (n : ℕ) (args : List String),
    args.length ≤ n → ∀ (c : Config) (d : Died),
    parseArgs c args = .error d → d.exitCode = 1 ∧ d.msg ≠ "" := by
  intro n
  induction n with
  | zero =>
    intro args hl c d h
    cases args with
    | nil => exact Except.noConfusion h
    | cons a rest => simp at hl
  | succ n ih =>
    intro args hl c d h
    cases args with
    | nil => exact Except.noConfusion h
    | cons a rest =>
      cases rest with
      | nil =>
        rw [parseArgs.eq_def] at h
        dsimp only at h
        by_cases hsw : headIs a '-' = true
        case neg =>
          rw [if_neg hsw] at h
          exact Except.noConfusion h
        rw [if_pos hsw] at h
        by_cases hk0 : a = "-burnin"
        · rw [if_pos hk0] at h
          simp only [Except.error.injEq] at h
          rw [← h]
          exact ⟨rfl, by decide⟩
        rw [if_neg hk0] at h
        by_cases hk1 : a = "-annealsteps"
        · rw [if_pos hk1] at h
          simp only [Except.error.injEq] at h
          rw [← h]
          exact ⟨rfl, by decide⟩
        rw [if_neg hk1] at h
        by_cases hk2 : a = "-anneallength"
        · rw [if_pos hk2] at h
          simp only [Except.error.injEq] at h
          rw [← h]
          exact ⟨rfl, by decide⟩
        rw [if_neg hk2] at h
        by_cases hk3 : a = "-samps"
        · rw [if_pos hk3] at h
          simp only [Except.error.injEq] at h
          rw [← h]
          exact ⟨rfl, by decide⟩
        rw [if_neg hk3] at h
        by_cases hk4 : a = "-samprate"
        · rw [if_pos hk4] at h
          simp only [Except.error.injEq] at h
          rw [← h]
          exact ⟨rfl, by decide⟩
        rw [if_neg hk4] at h
        by_cases hk5 : a = "-knownn"
        · rw [if_pos hk5] at h
          simp only [Except.error.injEq] at h
          rw [← h]
          exact ⟨rfl, by decide⟩
        rw [if_neg hk5] at h
        by_cases hk6 : a = "-unkn"
        · rw [if_pos hk6] at h
          simp only [Except.error.injEq] at h
          rw [← h]
          exact ⟨rfl, by decide⟩
        rw [if_neg hk6] at h
        by_cases hk7 : a = "-prune"
        · rw [if_pos hk7] at h
          simp only [Except.error.injEq] at h
          rw [← h]
          exact ⟨rfl, by decide⟩
        rw [if_neg hk7] at h
        by_cases hk8 : a = "-filelist"
        · rw [if_pos hk8] at h
          simp only [Except.error.injEq] at h
          rw [← h]
          exact ⟨rfl, by decide⟩
        rw [if_neg hk8] at h
        by_cases hk9 : a = "-input"
        · rw [if_pos hk9] at h
          simp only [Except.error.injEq] at h
          rw [← h]
          exact ⟨rfl, by decide⟩
        rw [if_neg hk9] at h
        by_cases hk10 : a = "-symbolfile"
        · rw [if_pos hk10] at h
          simp only [Except.error.injEq] at h
          rw [← h]
          exact ⟨rfl, by decide⟩
        rw [if_neg hk10] at h
        by_cases hk11 : a = "-prefix"
        · rw [if_pos hk11] at h
          simp only [Except.error.injEq] at h
          rw [← h]
          exact ⟨rfl, by decide⟩
        rw [if_neg hk11] at h
        by_cases hk12 : a = "-separator"
        · rw [if_pos hk12] at h
          simp only [Except.error.injEq] at h
          rw [← h]
          exact ⟨rfl, by decide⟩
        rw [if_neg hk12] at h
        by_cases hk13 : a = "-cacheinput"
        · rw [if_pos hk13] at h
          have h2 := ih [] (Nat.zero_le n) _ _ h
          exact h2
        rw [if_neg hk13] at h
        simp only [Except.error.injEq] at h
        rw [← h]
        exact ⟨rfl, append_ne_empty _ _ (by decide)⟩
      | cons v rs =>
        have hr1 : (v :: rs).length ≤ n := by simpa using hl
        have hr2 : rs.length ≤ n := by simp at hr1 ⊢; omega
        rw [parseArgs.eq_def] at h
        dsimp only at h
        by_cases hsw : headIs a '-' = true
        case neg =>
          rw [if_neg hsw] at h
          exact Except.noConfusion h
        rw [if_pos hsw] at h
        by_cases hk0 : a = "-burnin"
        · rw [if_pos hk0] at h
          have h2 := ih rs hr2 _ _ h
          exact h2
        rw [if_neg hk0] at h
        by_cases hk1 : a = "-annealsteps"
        · rw [if_pos hk1] at h
          have h2 := ih rs hr2 _ _ h
          exact h2
        rw [if_neg hk1] at h
        by_cases hk2 : a = "-anneallength"
        · rw [if_pos hk2] at h
          have h2 := ih rs hr2 _ _ h
          exact h2
        rw [if_neg hk2] at h
        by_cases hk3 : a = "-samps"
        · rw [if_pos hk3] at h
          have h2 := ih rs hr2 _ _ h
          exact h2
        rw [if_neg hk3] at h
        by_cases hk4 : a = "-samprate"
        · rw [if_pos hk4] at h
          have h2 := ih rs hr2 _ _ h
          exact h2
        rw [if_neg hk4] at h
        by_cases hk5 : a = "-knownn"
        · rw [if_pos hk5] at h
          have h2 := ih rs hr2 _ _ h
          exact h2
        rw [if_neg hk5] at h
        by_cases hk6 : a = "-unkn"
        · rw [if_pos hk6] at h
          have h2 := ih rs hr2 _ _ h
          exact h2
        rw [if_neg hk6] at h
        by_cases hk7 : a = "-prune"
        · rw [if_pos hk7] at h
          have h2 := ih rs hr2 _ _ h
          exact h2
        rw [if_neg hk7] at h
        by_cases hk8 : a = "-filelist"
        · rw [if_pos hk8] at h
          have h2 := ih rs hr2 _ _ h
          exact h2
        rw [if_neg hk8] at h
        by_cases hk9 : a = "-input"
        · rw [if_pos hk9] at h
          by_cases hv1 : v = "fst"
          · rw [if_pos hv1] at h
            have h2 := ih rs hr2 _ _ h
            exact h2
          · rw [if_neg hv1] at h
            by_cases hv2 : v = "text"
            · rw [if_pos hv2] at h
              have h2 := ih rs hr2 _ _ h
              exact h2
            · rw [if_neg hv2] at h
              simp only [Except.error.injEq] at h
              rw [← h]
              refine ⟨rfl, append_ne_empty _ _ ?_⟩
              rw [String.length_append]
              have h1 : 0 < ("Bad input type '").length := by decide
              omega
        rw [if_neg hk9] at h
        by_cases hk10 : a = "-symbolfile"
        · rw [if_pos hk10] at h
          have h2 := ih rs hr2 _ _ h
          exact h2
        rw [if_neg hk10] at h
        by_cases hk11 : a = "-prefix"
        · rw [if_pos hk11] at h
          have h2 := ih rs hr2 _ _ h
          exact h2
        rw [if_neg hk11] at h
        by_cases hk12 : a = "-separator"
        · rw [if_pos hk12] at h
          have h2 := ih rs hr2 _ _ h
          exact h2
        rw [if_neg hk12] at h
        by_cases hk13 : a = "-cacheinput"
        · rw [if_pos hk13] at h
          have h2 := ih (v :: rs) hr1 _ _ h
          exact h2
        rw [if_neg hk13] at h
        simp only [Except.error.injEq] at h
        rw [← h]
        exact ⟨rfl, append_ne_empty _ _ (by decide)⟩

/-- Every `parseArgs` failure carries exit code 1 and a diagnostic. -/
theorem parseArgs_error_inv (args : List String) (c : Config) (d : Died)
    (h : parseArgs c args = .error d) : d.exitCode = 1 ∧ d.msg ≠ "" :=
  parseArgs_error_bounded args.length args (le_refl _) c d h

/-- Every `procLine` failure (an empty line) carries exit code 1 and a
diagnostic. -/
theorem procLine_error_inv (fname line : String) (tab : SymTab) (d : Died)
    (h : procLine fname line tab = .error d) : d.exitCode = 1 ∧ d.msg ≠ "" := by
  unfold procLine at h
  dsimp only at h
  split at h
  · simp only [Except.error.injEq] at h
    rw [← h]
    refine ⟨rfl, append_ne_empty _ _ ?_⟩
    rw [String.length_append]
    have h1 : 0 < ("Empty line found in ").length := by decide
    omega
  · exact Except.noConfusion h

/-- Every `procLines` failure carries exit code 1 and a diagnostic. -/
theorem procLines_error_inv (fname : String) : ∀ (lns : List String)
    (tab : SymTab) (acc : List LinFst) (d : Died),
    procLines fname lns tab acc = .error d → d.exitCode = 1 ∧ d.msg ≠ "" := by
  intro lns
  induction lns with
  | nil =>
    intro tab acc d h
    exact absurd h (by simp [procLines])
  | cons ln lns ih =>
    intro tab acc d h
    simp only [procLines] at h
    split at h
    next d2 hline =>
      simp only [Except.error.injEq] at h
      rw [← h]
      exact procLine_error_inv fname ln tab d2 hline
    next r hline => exact ih _ _ d h

/-- Every `procFiles` failure carries exit code 1 and a diagnostic. -/
theorem procFiles_error_inv (fs : FileSys) : ∀ (files : List String)
    (tab : SymTab) (acc : List LinFst) (d : Died),
    procFiles fs files tab acc = .error d → d.exitCode = 1 ∧ d.msg ≠ "" := by
  intro files
  induction files with
  | nil =>
    intro tab acc d h
    exact absurd h (by simp [procFiles])
  | cons fl files ih =>
    intro tab acc d h
    simp only [procFiles] at h
    split at h
    next d2 hlines =>
      simp only [Except.error.injEq] at h
      rw [← h]
      exact procLines_error_inv fl _ _ _ d2 hlines
    next r hlines => exact ih _ _ d h

/-- Every `loadText` failure carries exit code 1 and a diagnostic. -/
theorem loadText_error_inv (fs : FileSys) (files : List String) (d : Died)
    (h : loadText fs files = .error d) : d.exitCode = 1 ∧ d.msg ≠ "" := by
  unfold loadText loadTextH at h
  dsimp only at h
  split at h
  next d2 hproc =>
    simp only [Except.error.injEq] at h
    rw [← h]
    split at hproc
    next d3 hp2 =>
      simp only [Except.error.injEq] at hproc
      rw [← hproc]
      exact procFiles_error_inv fs files _ _ d3 hp2
    next r hp2 => exact Except.noConfusion hproc
  next r hproc => exact Except.noConfusion h

/-- `finishLoad` fails with exit code 1 when there are no input files. -/
theorem finishLoad_no_files (c : Config) (syms : List String)
    (fsts : List (Option LinFst)) :
    finishLoad c [] syms fsts = .error ⟨1, "No input files specified"⟩ := by
  unfold finishLoad
  rw [if_pos (show ([] : List String).length = 0 from rfl)]

/-- `finishLoad` fails with exit code 1 on an empty output prefix. -/
theorem finishLoad_no_pfx (c : Config) (files : List String)
    (syms : List String) (fsts : List (Option LinFst)) (hp : c.outPfx = "") :
    finishLoad c files syms fsts = .error ⟨1, "No input files specified"⟩ ∨
    finishLoad c files syms fsts = .error ⟨1, "No output prefix was specified"⟩ := by
  unfold finishLoad
  by_cases hf : files.length = 0
  · rw [if_pos hf]
    exact Or.inl rfl
  · rw [if_neg hf, if_pos (by rw [hp]; rfl)]
    exact Or.inr rfl

/-- `loadStage2` fails with exit code 1 and a diagnostic in every
configuration-error situation. -/
theorem loadStage2_err (fs : FileSys) (c : Config) (pos : List String)
    (hcond : (c.inputType = 0 ∧ c.symbolFile = none) ∨
      inputFilesOf c pos fs = [] ∨ c.outPfx = "" ∨
      (∃ fl, c.inputFileList = some fl ∧ fs.readable fl = false) ∨
      (∃ f ∈ inputFilesOf c pos fs, fs.readable f = false)) :
    ∃ d, loadStage2 fs c pos = .error d ∧ d.exitCode = 1 ∧ d.msg ≠ "" := by
  cases hlf : loadFiles fs c pos with
  | error d =>
    refine ⟨d, ?_, loadFiles_error_inv fs c pos d hlf⟩
    unfold loadStage2
    rw [hlf]
  | ok files =>
    obtain ⟨hfe, hall, hflr⟩ := loadFiles_ok_inv fs c pos files hlf
    have hred : ∀ e : Except Died LoadedState,
        ((if c.inputType = 0 then
            match c.symbolFile with
            | none => .error ⟨1, "No symbol file was set"⟩
            | some sf =>
              finishLoad c files (loadSyms fs sf) (List.replicate files.length none)
          else
            match loadText fs files with
            | .error d => .error d
            | .ok r2 => finishLoad c files r2.2 (r2.1.map some)) = e) →
        loadStage2 fs c pos = e := by
      intro e he
      unfold loadStage2
      rw [hlf]
      exact he
    rcases hcond with ⟨ht0, hsym⟩ | hempty | hpfx | ⟨fl, hfl, hflu⟩ | ⟨f, hfmem, hfu⟩
    · refine ⟨⟨1, "No symbol file was set"⟩, hred _ ?_, rfl, by decide⟩
      rw [if_pos ht0, hsym]
    · have hfiles0 : files = [] := by rw [hfe, hempty]
      subst hfiles0
      by_cases ht : c.inputType = 0
      · cases hsym : c.symbolFile with
        | none =>
          refine ⟨⟨1, "No symbol file was set"⟩, hred _ ?_, rfl, by decide⟩
          rw [if_pos ht, hsym]
        | some sf =>
          refine ⟨⟨1, "No input files specified"⟩, hred _ ?_, rfl, by decide⟩
          rw [if_pos ht, hsym]
          exact finishLoad_no_files c (loadSyms fs sf) _
      · refine ⟨⟨1, "No input files specified"⟩, hred _ ?_, rfl, by decide⟩
        rw [if_neg ht]
        have hltr : loadText fs [] = .ok ([],
            ["x<eps>", "x<phi>", "x<unk>", "x</unk>", "w<s>"]) := rfl
        rw [hltr]
        exact finishLoad_no_files c _ _
    · by_cases ht : c.inputType = 0
      · cases hsym : c.symbolFile with
        | none =>
          refine ⟨⟨1, "No symbol file was set"⟩, hred _ ?_, rfl, by decide⟩
          rw [if_pos ht, hsym]
        | some sf =>
          rcases finishLoad_no_pfx c files (loadSyms fs sf)
              (List.replicate files.length none) hpfx with hfin | hfin
          · refine ⟨⟨1, "No input files specified"⟩, hred _ ?_, rfl, by decide⟩
            rw [if_pos ht, hsym]
            exact hfin
          · refine ⟨⟨1, "No output prefix was specified"⟩, hred _ ?_, rfl, by decide⟩
            rw [if_pos ht, hsym]
            exact hfin
      · cases hlt : loadText fs files with
        | error d =>
          refine ⟨d, hred _ ?_, loadText_error_inv fs files d hlt⟩
          rw [if_neg ht, hlt]
        | ok r2 =>
          rcases finishLoad_no_pfx c files r2.2 (r2.1.map some) hpfx with hfin | hfin
          · refine ⟨⟨1, "No input files specified"⟩, hred _ ?_, rfl, by decide⟩
            rw [if_neg ht, hlt]
            exact hfin
          · refine ⟨⟨1, "No output prefix was specified"⟩, hred _ ?_, rfl, by decide⟩
            rw [if_neg ht, hlt]
            exact hfin
    · have := hflr fl hfl
      rw [this] at hflu
      exact absurd hflu (by simp)
    · rw [← hfe] at hfmem
      have := hall f hfmem
      rw [this] at hfu
      exact absurd hfu (by simp)

/-- C7: every configuration error — a bad `-input` value or unknown option
(a `parseArgs` failure), FST mode with no symbol file, zero input files, an
empty output prefix, or an unreadable input file or file list — makes
`loadProperties` terminate with exit code 1 and a diagnostic on stderr. -/
theorem c7_config_errors_exit1 (args : List String) (fs : FileSys)
    (h : ConfigErr args fs) :
    ∃ d, loadProperties args fs = .error d ∧ d.exitCode = 1 ∧ d.msg ≠ "" := by
  rcases h with ⟨d, hd⟩ | ⟨c, pos, hcp, hcond⟩
  · refine ⟨d, ?_, parseArgs_error_inv args defaultConfig d hd⟩
    unfold loadProperties
    rw [hd]
  · have hsame : (if c.inputType = 1 then { c with cacheInput := true } else c).inputType = c.inputType ∧
        (if c.inputType = 1 then { c with cacheInput := true } else c).symbolFile = c.symbolFile ∧
        (if c.inputType = 1 then { c with cacheInput := true } else c).outPfx = c.outPfx ∧
        (if c.inputType = 1 then { c with cacheInput := true } else c).inputFileList = c.inputFileList := by
      by_cases h1 : c.inputType = 1
      · rw [if_pos h1]; exact ⟨rfl, rfl, rfl, rfl⟩
      · rw [if_neg h1]; exact ⟨rfl, rfl, rfl, rfl⟩
    have hifo : inputFilesOf (if c.inputType = 1 then { c with cacheInput := true } else c) pos fs =
        inputFilesOf c pos fs := by
      unfold inputFilesOf
      rw [hsame.2.2.2]
    obtain ⟨d, hls, hcode⟩ := loadStage2_err fs
      (if c.inputType = 1 then { c with cacheInput := true } else c) pos (by
        rcases hcond with ⟨ht0, hsym⟩ | hempty | hpfx | ⟨fl, hfl, hflu⟩ | ⟨f, hfmem, hfu⟩
        · exact Or.inl ⟨by rw [hsame.1]; exact ht0, by rw [hsame.2.1]; exact hsym⟩
        · exact Or.inr (Or.inl (by rw [hifo]; exact hempty))
        · exact Or.inr (Or.inr (Or.inl (by rw [hsame.2.2.1]; exact hpfx)))
        · exact Or.inr (Or.inr (Or.inr (Or.inl ⟨fl, by rw [hsame.2.2.2]; exact hfl, hflu⟩)))
        · exact Or.inr (Or.inr (Or.inr (Or.inr ⟨f, by rw [hifo]; exact hfmem, hfu⟩))))
    refine ⟨d, ?_, hcode⟩
    unfold loadProperties
    rw [hcp]
    exact hls

/-- C7, witness: `-input bogus` is a configuration error and the load
fails with exit code 1 and a diagnostic. -/
theorem c7_witness :
    ∃ d, loadProperties ["-input", "bogus"] trivFs = .error d ∧
      d.exitCode = 1 ∧ d.msg ≠ "" :=
  c7_config_errors_exit1 ["-input", "bogus"] trivFs
    (Or.inl ⟨⟨1, "Bad input type 'bogus'"⟩, by rfl⟩)

/-- `hashExt` is reflexive. -/
theorem hashExt_refl (h : List (String × ℕ)) : hashExt h h :=
  fun _ _ hv => hv

/-- `hashExt` is transitive. -/
theorem hashExt_trans {h1 h2 h3 : List (String × ℕ)}
    (a : hashExt h1 h2) (b : hashExt h2 h3) : hashExt h1 h3 :=
  fun s v hv => b s v (a s v hv)

/-- Appending entries on the right keeps existing bindings. -/
theorem lookup_append_left (h : List (String × ℕ)) (h2 : List (String × ℕ))
    (s : String) (v : ℕ) (hv : h.lookup s = some v) :
    (h ++ h2).lookup s = some v := by
  induction h with
  | nil => simp [List.lookup] at hv
  | cons e es ih =>
    rw [List.cons_append]
    rw [List.lookup] at hv ⊢
    split at hv
    · exact hv
    · exact ih hv

/-- Appending a binding for an absent key makes it found. -/
theorem lookup_append_self (h : List (String × ℕ)) (s : String) (n : ℕ)
    (hn : h.lookup s = none) : (h ++ [(s, n)]).lookup s = some n := by
  induction h with
  | nil => simp [List.lookup]
  | cons e es ih =>
    rw [List.lookup] at hn
    rw [List.cons_append, List.lookup]
    split at hn
    · exact Option.noConfusion hn
    · exact ih hn

/-- `findId` only ever appends hash bindings. -/
theorem findId_hashExt (t : String) (tab : SymTab) :
    hashExt tab.idHash (findId t tab).2.idHash := by
  unfold findId
  split
  · exact hashExt_refl _
  · exact fun s v hv => lookup_append_left _ _ s v hv

/-- The id `findId` returns is bound to the string afterwards. -/
theorem findId_lookup (t : String) (tab : SymTab) :
    (findId t tab).2.idHash.lookup t = some (findId t tab).1 := by
  unfold findId
  split
  next v hv => exact hv
  next hv => exact lookup_append_self _ _ _ hv

/-- `idListExt` is reflexive. -/
theorem idListExt_refl (tab : SymTab) : idListExt tab tab :=
  ⟨[], by simp⟩

/-- `idListExt` is transitive. -/
theorem idListExt_trans {t1 t2 t3 : SymTab}
    (a : idListExt t1 t2) (b : idListExt t2 t3) : idListExt t1 t3 := by
  obtain ⟨x, hx⟩ := a
  obtain ⟨y, hy⟩ := b
  exact ⟨x ++ y, by rw [hy, hx, List.map_append, List.append_assoc]⟩

/-- `findId` only ever appends an "x"-tagged symbol. -/
theorem findId_idListExt (t : String) (tab : SymTab) :
    idListExt tab (findId t tab).2 := by
  unfold findId
  split
  · exact idListExt_refl _
  · exact ⟨[t], rfl⟩

/-- The token loop of `loadText`: the final state is the start state plus
the token count, the hash and symbol list only grow, and against any later
extension of the hash the generated arcs are the linear arcs over the
tokens' final ids. -/
theorem procTokens_spec : ∀ (ts : List String) (q : ℕ) (tab : SymTab),
    (procTokens ts q tab).1 = q + ts.length ∧
    hashExt tab.idHash (procTokens ts q tab).2.2.idHash ∧
    idListExt tab (procTokens ts q tab).2.2 ∧
    ∀ h2, hashExt (procTokens ts q tab).2.2.idHash h2 →
      (procTokens ts q tab).2.1 = mkArcs q (ts.map (fun t => lookupD h2 t)) := by
  intro ts
  induction ts with
  | nil =>
    intro q tab
    exact ⟨rfl, hashExt_refl _, idListExt_refl _, fun h2 _ => rfl⟩
  | cons t ts ih =>
    intro q tab
    obtain ⟨hfin, hext, hlist, harcs⟩ := ih (q + 1) (findId t tab).2
    refine ⟨?_, hashExt_trans (findId_hashExt t tab) hext,
      idListExt_trans (findId_idListExt t tab) hlist, ?_⟩
    · show (procTokens ts (q + 1) (findId t tab).2).1 = q + (ts.length + 1)
      rw [hfin]
      omega
    · intro h2 hh2
      show (⟨q, (findId t tab).1, (findId t tab).1, 0, q + 1⟩ : Arc) ::
          (procTokens ts (q + 1) (findId t tab).2).2.1 =
        mkArcs q ((t :: ts).map (fun t => lookupD h2 t))
      rw [List.map_cons]
      show _ = mkArcs q (lookupD h2 t :: ts.map (fun t => lookupD h2 t))
      rw [mkArcs]
      have hlab : lookupD h2 t = (findId t tab).1 := by
        have h1 := findId_lookup t tab
        have h3 := hext _ _ h1
        have h4 := hh2 _ _ h3
        rw [lookupD, h4]
        rfl
      rw [hlab, harcs h2 hh2]

/-- One line of `loadText`: a successful conversion certifies the line was
non-empty, extends the tables, and produces exactly the linear FST over the
tokens' final ids. -/
theorem procLine_spec (fname line : String) (tab : SymTab)
    (fst : LinFst) (tab' : SymTab)
    (h : procLine fname line tab = .ok (fst, tab')) :
    tokenize line ≠ [] ∧ hashExt tab.idHash tab'.idHash ∧ idListExt tab tab' ∧
    ∀ h2, hashExt tab'.idHash h2 →
      fst = mkLinear ((tokenize line).map (lookupD h2)) := by
  obtain ⟨hfin, hext, hlist, harcs⟩ := procTokens_spec (tokenize line) 0 tab
  unfold procLine at h
  dsimp only at h
  split at h
  · exact absurd h (by simp)
  next hne =>
    simp only [Except.ok.injEq, Prod.mk.injEq] at h
    have htne : tokenize line ≠ [] := by
      intro hemp
      apply hne
      rw [hemp]
      rfl
    have htab : tab' = (procTokens (tokenize line) 0 tab).2.2 := h.2.symm
    refine ⟨htne, by rw [htab]; exact hext, by rw [htab]; exact hlist, ?_⟩
    intro h2 hh2
    rw [htab] at hh2
    rw [← h.1, mkLinear]
    have hlen : ((tokenize line).map (lookupD h2)).length = (tokenize line).length := by
      rw [List.length_map]
    rw [hlen, hfin, Nat.zero_add, harcs h2 hh2]

/-- The line loop of `loadText`: success certifies every line non-empty,
grows the tables, and appends one linear FST per line in order. -/
theorem procLines_spec (fname : String) : ∀ (lns : List String) (tab : SymTab)
    (acc : List LinFst) (out : List LinFst × SymTab),
    procLines fname lns tab acc = .ok out →
    hashExt tab.idHash out.2.idHash ∧ idListExt tab out.2 ∧
    (∀ ln ∈ lns, tokenize ln ≠ []) ∧
    ∀ h2, hashExt out.2.idHash h2 →
      out.1 = acc ++ lns.map (fun ln => mkLinear ((tokenize ln).map (lookupD h2))) := by
  intro lns
  induction lns with
  | nil =>
    intro tab acc out h
    simp only [procLines, Except.ok.injEq] at h
    rw [← h]
    exact ⟨hashExt_refl _, idListExt_refl _,
      fun ln hln => absurd hln (List.not_mem_nil ln),
      fun h2 _ => by simp⟩
  | cons ln lns ih =>
    intro tab acc out h
    simp only [procLines] at h
    split at h
    · exact absurd h (by simp)
    next r hline =>
      obtain ⟨hne, hext1, hlist1, harc1⟩ := procLine_spec fname ln tab r.1 r.2 (by
        rw [hline])
      obtain ⟨hext2, hlist2, hall2, harc2⟩ := ih r.2 (acc ++ [r.1]) out h
      refine ⟨hashExt_trans hext1 hext2, idListExt_trans hlist1 hlist2, ?_, ?_⟩
      · intro ln2 hln2
        rcases List.mem_cons.mp hln2 with he | he
        · rw [he]; exact hne
        · exact hall2 ln2 he
      · intro h2 hh2
        rw [harc2 h2 hh2, harc1 h2 (hashExt_trans hext2 hh2), List.map_cons,
          List.append_assoc, List.singleton_append]

/-- The file loop of `loadText`: success certifies every line of every file
non-empty, grows the tables, and appends the FSTs of all lines in order. -/
theorem procFiles_spec (fs : FileSys) : ∀ (files : List String) (tab : SymTab)
    (acc : List LinFst) (out : List LinFst × SymTab),
    procFiles fs files tab acc = .ok out →
    hashExt tab.idHash out.2.idHash ∧ idListExt tab out.2 ∧
    (∀ f ∈ files, ∀ ln ∈ fs.lines f, tokenize ln ≠ []) ∧
    ∀ h2, hashExt out.2.idHash h2 →
      out.1 = acc ++ (textLines fs files).map
        (fun toks => mkLinear (toks.map (lookupD h2))) := by
  intro files
  induction files with
  | nil =>
    intro tab acc out h
    simp only [procFiles, Except.ok.injEq] at h
    rw [← h]
    exact ⟨hashExt_refl _, idListExt_refl _,
      fun f hf => absurd hf (List.not_mem_nil f),
      fun h2 _ => by simp [textLines]⟩
  | cons fl files ih =>
    intro tab acc out h
    simp only [procFiles] at h
    split at h
    · exact absurd h (by simp)
    next r hlines =>
      obtain ⟨hext1, hlist1, hall1, harc1⟩ :=
        procLines_spec fl (fs.lines fl) tab acc r (by rw [hlines])
      obtain ⟨hext2, hlist2, hall2, harc2⟩ := ih r.2 r.1 out h
      refine ⟨hashExt_trans hext1 hext2, idListExt_trans hlist1 hlist2, ?_, ?_⟩
      · intro f hf ln hln
        rcases List.mem_cons.mp hf with he | he
        · rw [he] at hln
          exact hall1 ln hln
        · exact hall2 f he ln hln
      · intro h2 hh2
        rw [harc2 h2 hh2, harc1 h2 (hashExt_trans hext2 hh2)]
        rw [show textLines fs (fl :: files) =
          (fs.lines fl).map tokenize ++ textLines fs files from rfl]
        rw [List.map_append, List.map_map, List.append_assoc]
        rfl

/-- A line without tokens makes `procLine` die. -/
theorem procLine_empty (f ln : String) (tab : SymTab) (h : tokenize ln = []) :
    ∃ d, procLine f ln tab = .error d := by
  unfold procLine
  dsimp only
  rw [h, if_pos (show (procTokens ([] : List String) 0 tab).1 = 0 from rfl)]
  exact ⟨_, rfl⟩

/-- A token-less line anywhere in the list makes `procLines` die. -/
theorem procLines_empty (f : String) : ∀ (lns : List String) (tab : SymTab)
    (acc : List LinFst), (∃ ln ∈ lns, tokenize ln = []) →
    ∃ d, procLines f lns tab acc = .error d := by
  intro lns
  induction lns with
  | nil =>
    intro tab acc hex
    obtain ⟨ln, hln, _⟩ := hex
    exact absurd hln (List.not_mem_nil ln)
  | cons ln lns ih =>
    intro tab acc hex
    simp only [procLines]
    cases hpl : procLine f ln tab with
    | error d => exact ⟨d, rfl⟩
    | ok r =>
      rcases hex with ⟨ln2, hmem, htok⟩
      rcases List.mem_cons.mp hmem with he | he
      · rw [he] at htok
        obtain ⟨d, hd⟩ := procLine_empty f ln tab htok
        rw [hd] at hpl
        exact Except.noConfusion hpl
      · exact ih r.2 (acc ++ [r.1]) ⟨ln2, he, htok⟩

/-- A token-less line in any input file makes `procFiles` die. -/
theorem procFiles_empty (fs : FileSys) : ∀ (files : List String) (tab : SymTab)
    (acc : List LinFst), (∃ f ∈ files, ∃ ln ∈ fs.lines f, tokenize ln = []) →
    ∃ d, procFiles fs files tab acc = .error d := by
  intro files
  induction files with
  | nil =>
    intro tab acc hex
    obtain ⟨f, hf, _⟩ := hex
    exact absurd hf (List.not_mem_nil f)
  | cons fl files ih =>
    intro tab acc hex
    simp only [procFiles]
    cases hpl : procLines fl (fs.lines fl) tab acc with
    | error d => exact ⟨d, rfl⟩
    | ok r =>
      rcases hex with ⟨f, hfmem, hlns⟩
      rcases List.mem_cons.mp hfmem with he | he
      · rw [he] at hlns
        obtain ⟨d, hd⟩ := procLines_empty fl (fs.lines fl) tab acc hlns
        rw [hd] at hpl
        exact Except.noConfusion hpl
      · exact ih r.2 r.1 ⟨f, he, hlns⟩

/-- A token-less line in any input file makes `loadText` die. -/
theorem loadText_empty (fs : FileSys) (files : List String)
    (hex : ∃ f ∈ files, ∃ ln ∈ fs.lines f, tokenize ln = []) :
    ∃ d, loadText fs files = .error d := by
  unfold loadText loadTextH
  dsimp only
  obtain ⟨d, hd⟩ := procFiles_empty fs files
    ⟨(findId "<phi>" (findId "<eps>" ⟨[], []⟩).2).2.idHash,
     (findId "<phi>" (findId "<eps>" ⟨[], []⟩).2).2.idList ++ ["x<unk>", "x</unk>"]⟩
    [] hex
  rw [hd]
  exact ⟨d, rfl⟩

/-- C6: in text mode a line with no whitespace-separated token is fatal
(`loadText` fails with exit code 1 and a diagnostic), and on success every
line was non-empty and each line is converted into the linear FST with one
state per token plus one, one zero-weight arc per token carrying the
token's id as both input and output label, and a zero-weight final
state. -/
theorem c6_text_loading (fs : FileSys) (files : List String) :
    ((∃ f ∈ files, ∃ ln ∈ fs.lines f, tokenize ln = []) →
      ∃ d, loadText fs files = .error d ∧ d.exitCode = 1 ∧ d.msg ≠ "") ∧
    (∀ fsts tab, loadTextH fs files = .ok (fsts, tab) →
      (∀ f ∈ files, ∀ ln ∈ fs.lines f, tokenize ln ≠ []) ∧
      fsts = (textLines fs files).map
        (fun toks => mkLinear (toks.map (lookupD tab.idHash)))) := by
  constructor
  · intro hex
    obtain ⟨d, hd⟩ := loadText_empty fs files hex
    exact ⟨d, hd, loadText_error_inv fs files d hd⟩
  · intro fsts tab h
    unfold loadTextH at h
    dsimp only at h
    split at h
    · exact absurd h (by simp)
    next r hproc =>
      simp only [Except.ok.injEq, Prod.mk.injEq] at h
      obtain ⟨hext, hlist, hall, harcs⟩ := procFiles_spec fs files _ [] r hproc
      refine ⟨hall, ?_⟩
      have hh : tab.idHash = r.2.idHash := by rw [← h.2]
      rw [← h.1, hh, harcs r.2.idHash (hashExt_refl _), List.nil_append]

/-- C6, witness: loading the single line "a b" yields the two-arc linear
FST over ids 2 and 3, and certifies the line non-empty. -/
theorem c6_witness :
    (∀ f ∈ ["f"], ∀ ln ∈ fs1.lines f, tokenize ln ≠ []) ∧
    [mkLinear [2, 3]] = (textLines fs1 ["f"]).map
      (fun toks => mkLinear (toks.map (lookupD tabW.idHash))) :=
  (c6_text_loading fs1 ["f"]).2 [mkLinear [2, 3]] tabW (by rfl)

/-- A string built by prepending the tag "x" starts with 'x'. -/
theorem headIs_x (t : String) : headIs ("x" ++ t) 'x' = true := rfl

/-- A string built by prepending the tag "w" starts with 'w'. -/
theorem headIs_w (t : String) : headIs ("w" ++ t) 'w' = true := rfl

/-- Position and counting facts for any symbol list of the shape `loadText`
produces: the four seed symbols, then only "x"-tagged character symbols,
then the word anchor. -/
theorem layout_facts (l : List String) (toks : List String)
    (hl : l = "x<eps>" :: "x<phi>" :: "x<unk>" :: "x</unk>" ::
      (toks.map (fun t => "x" ++ t) ++ ["w<s>"])) :
    l.getD 0 "" = "x<eps>" ∧ l.getD 1 "" = "x<phi>" ∧
    (∀ i, 2 ≤ i → i < 2 + getNumChars l → headIs (l.getD i "") 'x' = true) ∧
    l.getD (2 + getNumChars l) "" = "w<s>" ∧
    l.length = 2 + getNumChars l + 1 := by
  subst hl
  have hmap : ∀ ts : List String,
      (ts.map (fun t => "x" ++ t)).countP (fun s => headIs s 'x') = ts.length := by
    intro ts
    induction ts with
    | nil => rfl
    | cons t ts ih => simp [List.countP_cons, headIs_x, ih]
  have hcnt : getNumChars ("x<eps>" :: "x<phi>" :: "x<unk>" :: "x</unk>" ::
      (toks.map (fun t => "x" ++ t) ++ ["w<s>"])) = 2 + toks.length := by
    unfold getNumChars
    simp only [List.countP_cons, List.countP_append, List.countP_nil, hmap,
      show headIs "x<eps>" 'x' = true from rfl,
      show headIs "x<phi>" 'x' = true from rfl,
      show headIs "x<unk>" 'x' = true from rfl,
      show headIs "x</unk>" 'x' = true from rfl,
      show headIs "w<s>" 'x' = false from rfl]
    simp
    omega
  refine ⟨rfl, rfl, ?_, ?_, ?_⟩
  · intro i h2 h4
    rw [hcnt] at h4
    rcases Nat.lt_or_ge i 4 with hi | hi
    · interval_cases i
      · rfl
      · rfl
    · show headIs ((["x<eps>", "x<phi>", "x<unk>", "x</unk>"] ++
        (toks.map (fun t => "x" ++ t) ++ ["w<s>"])).getD i "") 'x' = true
      rw [List.getD_append_right _ _ "" i (by simpa using hi),
        show (["x<eps>", "x<phi>", "x<unk>", "x</unk>"] : List String).length = 4 from rfl]
      have hk : i - 4 < (toks.map (fun t => "x" ++ t)).length := by
        rw [List.length_map]; omega
      rw [List.getD_append _ _ "" (i - 4) hk]
      rw [List.getD_eq_getElem _ "" hk, List.getElem_map]
      exact headIs_x _
  · rw [hcnt]
    show (["x<eps>", "x<phi>", "x<unk>", "x</unk>"] ++
      (toks.map (fun t => "x" ++ t) ++ ["w<s>"])).getD (2 + (2 + toks.length)) "" = "w<s>"
    rw [List.getD_append_right _ _ "" _ (by simp; omega)]
    rw [List.getD_append_right _ _ "" _ (by simp; omega)]
    have : 2 + (2 + toks.length) - (["x<eps>", "x<phi>", "x<unk>", "x</unk>"] :
        List String).length - (toks.map (fun t => "x" ++ t)).length = 0 := by
      simp; omega
    rw [this]
    rfl
  · rw [hcnt]
    simp
    omega

/-- The inner loop of `writeSamples` at a nonzero position prints a space
before every token; against any accumulator it coincides with
`String.intercalate.go` over the stripped symbols. -/
theorem sampleLineLoop_go (syms : List String) : ∀ (ws : List WordId)
    (acc : String) (j : ℕ), j ≠ 0 →
    acc ++ sampleLineLoop syms ws j =
      String.intercalate.go acc " "
        (ws.map (fun w => (syms.getD w.toNat "").drop 1)) := by
  intro ws
  induction ws with
  | nil =>
    intro acc j hj
    show acc ++ "" = acc
    simp
  | cons w ws ih =>
    intro acc j hj
    have h2 := ih (acc ++ " " ++ (syms.getD w.toNat "").drop 1) (j + 1)
      (Nat.succ_ne_zero j)
    simp only [sampleLineLoop, List.map_cons]
    rw [if_pos hj]
    show acc ++ (" " ++ ((syms.getD w.toNat "").drop 1 ++ sampleLineLoop syms ws (j + 1))) =
      String.intercalate.go (acc ++ " " ++ (syms.getD w.toNat "").drop 1) " "
        (ws.map (fun w => (syms.getD w.toNat "").drop 1))
    rw [← h2, ← String.append_assoc, ← String.append_assoc]

/-- The line loop of `writeSamples` joins the tag-stripped symbols of a
history with single spaces. -/
theorem sampleLineLoop_intercalate (syms : List String) (ws : List WordId) :
    sampleLineLoop syms ws 0 =
      String.intercalate " " (ws.map (fun w => (syms.getD w.toNat "").drop 1)) := by
  cases ws with
  | nil => rfl
  | cons w ws =>
    have h2 := sampleLineLoop_go syms ws ((syms.getD w.toNat "").drop 1) 1
      (Nat.succ_ne_zero 0)
    show "" ++ ((syms.getD w.toNat "").drop 1 ++ sampleLineLoop syms ws 1) =
      String.intercalate.go ((syms.getD w.toNat "").drop 1) " "
        (ws.map (fun w => (syms.getD w.toNat "").drop 1))
    rw [← h2]
    simp

/-- C9: the symbol table produced by text-mode loading holds epsilon at
position 0 and phi at position 1 (stored "x"-tagged like every character
symbol), the U character symbols at positions 2 to 2+U-1 all tagged "x"
(U being `getNumChars` of the table), and the word region from position
2+U onward, at load time exactly the anchor `w<s>`; every word symbol the
lexicon later adds is "w"-tagged, and `writeSamples` strips the one-
character tag of every symbol it writes, joining tokens with spaces. -/
theorem c9_symbol_table_layout (fs : FileSys) (files : List String)
    (fsts : List LinFst) (tab : SymTab)
    (h : loadTextH fs files = .ok (fsts, tab)) :
    (tab.idList.getD 0 "" = "x<eps>" ∧
     tab.idList.getD 1 "" = "x<phi>" ∧
     (∀ i, 2 ≤ i → i < 2 + getNumChars tab.idList →
        headIs (tab.idList.getD i "") 'x' = true) ∧
     tab.idList.getD (2 + getNumChars tab.idList) "" = "w<s>" ∧
     tab.idList.length = 2 + getNumChars tab.idList + 1) ∧
    (∀ (lex : LexState) (cs : List CharId),
      ∀ s ∈ (addWordL lex cs).2.symbols, s ∈ lex.symbols ∨ headIs s 'w' = true) ∧
    (∀ (wordSyms : List String) (hists : List (List WordId)),
      writeSamplesLines wordSyms hists =
        hists.map (fun hist => String.intercalate " "
          (hist.map (fun w => (wordSyms.getD w.toNat "").drop 1)))) := by
  have hdec : ∃ toks : List String, tab.idList =
      "x<eps>" :: "x<phi>" :: "x<unk>" :: "x</unk>" ::
        (toks.map (fun t => "x" ++ t) ++ ["w<s>"]) := by
    unfold loadTextH at h
    dsimp only at h
    split at h
    · exact absurd h (by simp)
    next r hproc =>
      simp only [Except.ok.injEq, Prod.mk.injEq] at h
      obtain ⟨hext, hlist, hall, harcs⟩ := procFiles_spec fs files _ [] r hproc
      obtain ⟨toks, htoks⟩ := hlist
      refine ⟨toks, ?_⟩
      rw [← h.2]
      show r.2.idList ++ ["w<s>"] = _
      rw [htoks]
      show (["x<eps>", "x<phi>", "x<unk>", "x</unk>"] ++
        toks.map (fun t => "x" ++ t)) ++ ["w<s>"] = _
      simp [List.append_assoc]
  obtain ⟨toks, htoks⟩ := hdec
  refine ⟨layout_facts tab.idList toks htoks, ?_, ?_⟩
  · intro lex cs s hs
    unfold addWordL at hs
    split at hs
    · exact Or.inl hs
    · dsimp only at hs
      rcases List.mem_append.mp hs with h1 | h1
      · exact Or.inl h1
      · right
        rw [List.mem_singleton.mp h1]
        exact headIs_w _
  · intro wordSyms hists
    unfold writeSamplesLines
    exact List.map_congr_left (fun hist _ => sampleLineLoop_intercalate wordSyms hist)

/-- C9, witness: on the table loaded from the line "a b" the reserved
positions, the "x" tag at a character position and the anchor position
2+U all evaluate as stated, and a two-word history prints tag-stripped. -/
theorem c9_witness :
    tabW.idList.getD 0 "" = "x<eps>" ∧
    tabW.idList.getD 1 "" = "x<phi>" ∧
    headIs (tabW.idList.getD 4 "") 'x' = true ∧
    tabW.idList.getD (2 + getNumChars tabW.idList) "" = "w<s>" ∧
    writeSamplesLines ["w<s>", "wa"] [[1, 0]] = ["a <s>"] := by
  have h := c9_symbol_table_layout fs1 ["f"] [mkLinear [2, 3]] tabW (by rfl)
  refine ⟨h.1.1, h.1.2.1, h.1.2.2.1 4 (by decide) (by decide), h.1.2.2.2.1, ?_⟩
  rw [h.2.2 ["w<s>", "wa"] [[1, 0]]]
  rfl

end LatticeLM

